import Mathlib

/-!
Verification of the sentence-aware chunking subsystem of the issue-triage
repository (src/ingest/chunker.py, together with the markdown cleaning pass
of src/ingest/clean_text.py that the document assembler calls).

Modelling conventions.

Python strings are modelled as `List Char` (abbreviated `Str`).  The external
tokenizer (tiktoken, reached through `count_tokens`) is an opaque external
collaborator; it is modelled as an explicit parameter `tok : Str → Nat`
threaded through every function that the Python code lets read the module
global `count_tokens`.

Python regular expressions are compiled by hand into character-list scanners.
Each scanner is accompanied by a comment spelling out the correspondence with
the regex it implements.  Where a Python loop is not structurally recursive,
a fuel argument bounded by the input length is used; every such loop consumes
at least one character (or one list element) per iteration, so a fuel of
`length + 1` never runs out and the fuel-exhausted branch is unreachable.
The one loop that genuinely may fail to terminate — the outer packing loop of
`pack_sentences_into_chunks`, whose overlap rewind can move the scan position
back to the exact start of the chunk it just emitted — keeps its fuel as an
explicit argument, and the function returns `none` when the fuel runs out,
so that non-termination of the Python loop is observable as
`∀ fuel, result fuel = none`.

Python `int` arguments (`max_tokens`, `overlap_tokens`, `cap`,
`max_embed_tokens`) are `Int`; token counts and list indices, which are
always non-negative, are `Nat`.
-/

namespace IssueTriage

/-- Python strings, modelled as lists of characters. -/
abbrev Str := List Char

/-- Python whitespace, as matched by `\s` (ASCII part) and stripped by
`str.strip()`: space, tab, newline, carriage return, vertical tab, form
feed. -/
def ws (c : Char) : Bool :=
  c = ' ' || c = '\t' || c = '\n' || c = '\r' || c = Char.ofNat 11 || c = Char.ofNat 12

/-- Sentence-ending punctuation, the `[.!?]` class of `_SENT_END_RE`. -/
def isEnd (c : Char) : Bool :=
  c = '.' || c = '!' || c = '?'

/-- Closing quote or bracket, the `["')\]]` class of `_SENT_END_RE` (double
quote, single quote, closing parenthesis, closing square bracket). -/
def isQ (c : Char) : Bool :=
  c = Char.ofNat 34 || c = Char.ofNat 39 || c = ')' || c = ']'

/-- The lookahead class `[A-Z0-9"(\[]` of `_SENT_END_RE`: ASCII capital
letter, ASCII digit, double quote, opening parenthesis, opening square
bracket. -/
def isLA (c : Char) : Bool :=
  ('A' ≤ c && c ≤ 'Z') || ('0' ≤ c && c ≤ '9') || c = Char.ofNat 34 || c = '(' || c = '['

/-- Python `str.strip()`: drop whitespace from both ends. -/
def pyStrip (l : Str) : Str :=
  ((l.dropWhile ws).reverse.dropWhile ws).reverse

/-- A string with no leading and no trailing whitespace. -/
def Stripped (l : Str) : Prop :=
  (∀ h, l.head? = some h → ws h = false) ∧ (∀ h, l.getLast? = some h → ws h = false)

/-- Flush a pending (reversed) whitespace run for `collapseNl`: a run that
contains a newline is replaced by a single space, any other run is kept
verbatim.  This reproduces `re.sub(r"\s*\n\s*", " ", ...)`: that pattern
matches exactly the maximal whitespace runs containing at least one newline
(the greedy `\s*` pieces absorb the whole run around the `\n`). -/
def nlFlush (run : Str) : Str :=
  if '\n' ∈ run then [' '] else run.reverse

/-- Worker for `collapseNl`; `run` is the reversed whitespace run read so
far. -/
def collapseNlGo (run : Str) : Str → Str
  | [] => nlFlush run
  | c :: rest =>
    if ws c then collapseNlGo (c :: run) rest
    else nlFlush run ++ c :: collapseNlGo [] rest

/-- The inner-newline collapse `re.sub(r"\s*\n\s*", " ", s)` used by
`split_paragraph_into_sentences`. -/
def collapseNl (l : Str) : Str :=
  collapseNlGo [] l

/-- Python `" ".join(parts)`. -/
def joinSp : List Str → Str
  | [] => []
  | [s] => s
  | s :: rest => s ++ ' ' :: joinSp rest

/-!
The sentence-boundary regex

    (?<= [.!?] ) (?: ["')\]] )? \s+ (?=(?:[A-Z0-9"(\[]) )

is compiled as follows.  A match can start at position `p ≥ 1` only when the
character at `p - 1` is in `[.!?]` (one-character lookbehind).  From `p` the
engine optionally consumes one closing quote/bracket, must then consume at
least one whitespace character, and requires the next character after the
whitespace to be in the lookahead class.  Backtracking cannot rescue a failed
attempt: if the optional quote was consumed but no whitespace follows, the
no-quote alternative needs whitespace at the quote character itself, which is
not whitespace; and shrinking the greedy `\s+` leaves a whitespace character
under the lookahead, which contains no whitespace.  Hence an attempt at `p`
succeeds iff (after the optional quote) the next character is whitespace and
the first non-whitespace character after that run is in the lookahead class,
and the match then consumes the optional quote plus the whole whitespace run.
`tryMatch` takes the text starting at `p` and returns the remainder after the
match (beginning with the lookahead character), or `none`.
-/

/-- The lookahead test at the end of a `_SENT_END_RE` match attempt: the
first character after the whitespace run must be in the lookahead class
(and is not consumed). -/
def tmLook : Str → Option Str
  | d :: r => if isLA d then some (d :: r) else none
  | [] => none

/-- The mandatory part of a `_SENT_END_RE` match attempt after the optional
closing quote: at least one whitespace character, whose maximal run must be
followed by a lookahead-class character. -/
def tmCore (l2 : Str) : Option Str :=
  match l2 with
  | c :: _ => if ws c then tmLook (l2.dropWhile ws) else none
  | [] => none

/-- One match attempt of `_SENT_END_RE` at the head of `l` (the lookbehind
test on the previous character is done by the caller): optionally consume
one closing quote/bracket, then run `tmCore`.  Returns the text remaining
after the matched span. -/
def tryMatch (l : Str) : Option Str :=
  match l with
  | c :: r => if isQ c then tmCore r else tmCore (c :: r)
  | [] => none

/-- Scan for the leftmost `_SENT_END_RE` match, as `re.split` does: return
the text before the match and, if a match was found, the remainder after it.
`prev` is the character before the current position (the lookbehind). -/
def takePart (prev : Char) : Str → Str × Option Str
  | [] => ([], none)
  | c :: rest =>
    match (if isEnd prev then tryMatch (c :: rest) else none) with
    | some r => ([], some r)
    | none =>
      let pr := takePart c rest
      (c :: pr.1, pr.2)

/-- Fuelled splitting of a string at all `_SENT_END_RE` matches, left to
right, non-overlapping (the semantics of `re.split`).  After a match the
scan resumes at the remainder; the character before the resumption point is
the last consumed whitespace character, which is never in `[.!?]`, so the
sentinel `' '` is passed as the new lookbehind.  Each round strictly shrinks
the input (`tryMatch` consumes at least one whitespace character), so fuel
`l.length + 1` is never exhausted. -/
def scanPartsF : Nat → Char → Str → List Str
  | 0, _, l => [l]
  | fuel + 1, prev, l =>
    match takePart prev l with
    | (p, none) => [p]
    | (p, some r) => p :: scanPartsF fuel ' ' r

/-- Split a string at all sentence-boundary matches (`_SENT_END_RE.split`).
At the start of the string the lookbehind has no character to inspect, so
any non-sentence-ending sentinel works; `' '` is used. -/
def scanParts (l : Str) : List Str :=
  scanPartsF (l.length + 1) ' ' l

/-- The trailing test `re.search(r'[.!?]["\')\]]?$', buf)` of the merge
loop: the last character is sentence-ending punctuation, or is a closing
quote/bracket preceded by sentence-ending punctuation. -/
def endsSentence (s : Str) : Bool :=
  match s.reverse with
  | [] => false
  | c :: rest =>
    isEnd c || (isQ c && (match rest with
      | d :: _ => isEnd d
      | [] => false))

/-- The merge loop of `split_paragraph_into_sentences`: strip each part,
skip empty pieces, and append a piece to the running buffer when the buffer
does not yet look sentence-final, otherwise emit the buffer.  `out` holds
the emitted sentences in reverse. -/
def sentMerge (out : List Str) (buf : Str) : List Str → List Str
  | [] => (if buf = [] then out else buf :: out).reverse
  | part :: rest =>
    let piece := pyStrip part
    if piece = [] then sentMerge out buf rest
    else if buf = [] then sentMerge out piece rest
    else if endsSentence buf then sentMerge (buf :: out) piece rest
    else sentMerge out (pyStrip (buf ++ ' ' :: piece)) rest

/-- Embedding of `split_paragraph_into_sentences` (chunker.py lines 83-113):
collapse newline runs of the stripped paragraph to single spaces, split at
the boundary regex, then run the merge/repair pass. -/
def split_paragraph_into_sentences (paragraph : Str) : List Str :=
  sentMerge [] [] (scanParts (collapseNl (pyStrip paragraph)))

/-!
Paragraph splitting, `split_into_paragraphs` (chunker.py lines 70-80):
`re.split(r"\n\s*\n", text.replace("\r\n", "\n"))`, then strip each part and
drop the empty ones.  The pattern `\n\s*\n` matches, inside a maximal
whitespace run containing at least two newlines, the span from the first
newline of the run to the last newline of the run (the greedy `\s*`
backtracks to end on a newline); whitespace of the run before the first
newline stays with the preceding part and whitespace after the last newline
with the following part.
-/

/-- Python `text.replace("\r\n", "\n")`: left-to-right, non-overlapping. -/
def replCRLF : Str → Str
  | [] => []
  | c :: rest =>
    if c = '\r' then
      match rest with
      | d :: rest2 =>
        if d = '\n' then '\n' :: replCRLF rest2 else c :: replCRLF (d :: rest2)
      | [] => [c]
    else c :: replCRLF rest

/-- Decide whether a whitespace run (in order) contains a `\n\s*\n` match,
and if so return the part of the run before its first newline and the part
after its last newline. -/
def runCut (run : Str) : Option (Str × Str) :=
  let pre := run.takeWhile (· ≠ '\n')
  match run.dropWhile (· ≠ '\n') with
  | _ :: r =>
    if '\n' ∈ r then some (pre, (r.reverse.takeWhile (· ≠ '\n')).reverse)
    else none
  | [] => none

/-- Worker for the paragraph split; `part` is the current part so far and
`run` the pending whitespace run, both in order. -/
def paraSplitGo (part : Str) (run : Str) : Str → List Str
  | [] =>
    match runCut run with
    | some (pre, post) => [part ++ pre, post]
    | none => [part ++ run]
  | c :: rest =>
    if ws c then paraSplitGo part (run ++ [c]) rest
    else
      match runCut run with
      | some (pre, post) => (part ++ pre) :: paraSplitGo (post ++ [c]) [] rest
      | none => paraSplitGo (part ++ run ++ [c]) [] rest

/-- Embedding of `split_into_paragraphs` (chunker.py lines 70-80). -/
def split_into_paragraphs (text : Str) : List Str :=
  ((paraSplitGo [] [] (replCRLF text)).map pyStrip).filter (· ≠ [])

/-!
Markdown cleaning, `md_to_text` (clean_text.py).  The five substitution
passes are compiled into scanners; the first four are only ever used on
concrete inputs by the development, so they carry a fuel argument of
`length + 1` (each iteration consumes at least one character, so the fuel
never runs out) and no lemmas.
-/

/-- The backtick character. -/
def tick : Char := Char.ofNat 96

/-- Find the first occurrence of three consecutive backticks and return the
text after it. -/
def findFence : Str → Option Str
  | c1 :: c2 :: c3 :: rest =>
    if c1 = tick && c2 = tick && c3 = tick then some rest
    else findFence (c2 :: c3 :: rest)
  | _ => none

/-- Pass 1 of `md_to_text`: `re.sub(r"```[\s\S]*?```", "", md)` removes each
fenced block from an opening triple backtick to the nearest closing triple
backtick; an opening fence without a closing one is kept verbatim. -/
def stripFences : Nat → Str → Str
  | 0, l => l
  | fuel + 1, l =>
    match l with
    | c1 :: c2 :: c3 :: rest =>
      if c1 = tick && c2 = tick && c3 = tick then
        match findFence rest with
        | some rem => stripFences fuel rem
        | none => c1 :: stripFences fuel (c2 :: c3 :: rest)
      else c1 :: stripFences fuel (c2 :: c3 :: rest)
    | c :: rest => c :: stripFences fuel rest
    | [] => []

/-- Scan for the closing `>` of an HTML tag (at least one character after
the `<` has already been checked by the caller). -/
def tagClose : Str → Option Str
  | '>' :: rest => some rest
  | _ :: rest => tagClose rest
  | [] => none

/-- Pass 2 of `md_to_text`: `re.sub(r"<[^>]+>", " ", md)` replaces each span
from a `<` through the first `>` at distance at least two with a single
space; `<>` and an unclosed `<` are kept. -/
def stripTags : Nat → Str → Str
  | 0, l => l
  | fuel + 1, l =>
    match l with
    | '<' :: rest =>
      match rest with
      | '>' :: _ => '<' :: stripTags fuel rest
      | _ :: r2 =>
        match tagClose r2 with
        | some rem => ' ' :: stripTags fuel rem
        | none => '<' :: stripTags fuel rest
      | [] => ['<']
    | c :: rest => c :: stripTags fuel rest
    | [] => []

/-- Pass 3 of `md_to_text`:
`re.sub(r"\[([^\]]+)\]\(([^\)]+)\)", r"\1 (\2)", md)`.  The greedy `[^\]]+`
runs to the first `]`, which must be immediately followed by `(`, and
`[^\)]+` runs to the first `)`; both groups must be non-empty. -/
def subLinks : Nat → Str → Str
  | 0, l => l
  | fuel + 1, l =>
    match l with
    | '[' :: rest =>
      let txt := rest.takeWhile (· ≠ ']')
      (if txt = [] then '[' :: subLinks fuel rest
       else match rest.dropWhile (· ≠ ']') with
        | _ :: '(' :: r2 =>
          let url := r2.takeWhile (· ≠ ')')
          if url = [] then '[' :: subLinks fuel rest
          else match r2.dropWhile (· ≠ ')') with
            | _ :: rem => txt ++ ' ' :: '(' :: url ++ ')' :: subLinks fuel rem
            | [] => '[' :: subLinks fuel rest
        | _ => '[' :: subLinks fuel rest)
    | c :: rest => c :: subLinks fuel rest
    | [] => []

/-- Pass 4 of `md_to_text`: `re.sub(r"^#+\s*", "", md, flags=re.MULTILINE)`.
`atStart` records whether the scan position is at the start of the string or
right after a newline (the multiline `^`); the greedy `\s*` may consume
newlines, and after a match the position is at a line start iff the last
consumed character was a newline. -/
def subHeads : Nat → Bool → Str → Str
  | 0, _, l => l
  | fuel + 1, atStart, l =>
    match l with
    | c :: rest =>
      if atStart && c = '#' then
        let afterHash := rest.dropWhile (· = '#')
        let wsRun := afterHash.takeWhile ws
        subHeads fuel (wsRun.getLast? = some '\n') (afterHash.dropWhile ws)
      else c :: subHeads fuel (c = '\n') rest
    | [] => []

/-- Bullet characters, the `[-*+]` class. -/
def isBullet (c : Char) : Bool :=
  c = '-' || c = '*' || c = '+'

/-- Pass 5 of `md_to_text`:
`re.sub(r"^\s*[-*+]\s+", "- ", md, flags=re.MULTILINE)`.  At a line start the
greedy `^\s*` (which may span newlines) must be followed by a bullet
character and at least one further whitespace character; the whole match is
replaced by `"- "`. -/
def subBullets : Nat → Bool → Str → Str
  | 0, _, l => l
  | fuel + 1, atStart, l =>
    match l with
    | c :: rest =>
      (if atStart then
        match (c :: rest).dropWhile ws with
        | b :: r2 =>
          if isBullet b then
            match r2 with
            | d :: _ =>
              if ws d then
                '-' :: ' ' :: subBullets fuel ((r2.takeWhile ws).getLast? = some '\n') (r2.dropWhile ws)
              else c :: subBullets fuel (c = '\n') rest
            | [] => c :: subBullets fuel (c = '\n') rest
          else c :: subBullets fuel (c = '\n') rest
        | [] => c :: subBullets fuel (c = '\n') rest
       else c :: subBullets fuel (c = '\n') rest)
    | [] => []

/-- Pass 6 of `md_to_text`: `re.sub(r"\s+", " ", md)` — every maximal
whitespace run becomes a single space.  `prevWs` records whether the
previous character was whitespace. -/
def collapseAllWs (prevWs : Bool) : Str → Str
  | [] => []
  | c :: rest =>
    if ws c then
      (if prevWs then collapseAllWs true rest else ' ' :: collapseAllWs true rest)
    else c :: collapseAllWs false rest

/-- Embedding of `md_to_text` (clean_text.py): falsy (empty) input maps to
the empty string, otherwise the six substitution passes run in order and
the result is stripped. -/
def md_to_text (md : Str) : Str :=
  if md = [] then []
  else
    let s1 := stripFences (md.length + 1) md
    let s2 := stripTags (s1.length + 1) s1
    let s3 := subLinks (s2.length + 1) s2
    let s4 := subHeads (s3.length + 1) true s3
    let s5 := subBullets (s4.length + 1) true s4
    pyStrip (collapseAllWs false s5)

/-!
Chunking (chunker.py lines 20-37 and 129-326).  `tok : Str → Nat` stands for
the module-global `count_tokens` closure produced by `get_token_counter`.
-/

/-- The `Chunk` dataclass (chunker.py lines 20-37).  `title` is
`Option Str`, with `none` for Python `None`. -/
structure Chunk where
  chunk_id : Nat
  text : Str
  token_count : Nat
  start_sentence : Nat
  end_sentence : Nat
  title : Option Str := none
deriving DecidableEq, Repr

/-- Embedding of `sentence_token_counts` (chunker.py lines 116-124). -/
def sentence_token_counts (tok : Str → Nat) (sentences : List Str) : List Nat :=
  sentences.map tok

/-- The extension phase of the greedy inner loop shared by
`pack_sentences_into_chunks` and `enforce_hard_cap`: with `cur` tokens
already in the chunk, count how many further sentences are accepted by the
test `cur_tokens + sentence_toks <= bound`. -/
def extendCount (bound : Int) (cur : Nat) : List Nat → Nat
  | [] => 0
  | t :: ts =>
    if (cur : Int) + t ≤ bound then 1 + extendCount bound (cur + t) ts
    else 0

/-- The greedy inner loop on a non-empty token list: the first sentence is
always taken (the `or end_i < start_i` disjunct), then `extendCount`
extends.  Returns the number of sentences in the chunk. -/
def takeCount (bound : Int) (t : Nat) (ts : List Nat) : Nat :=
  1 + extendCount bound t ts

/-- The backward overlap walk (chunker.py lines 185-190) over the reversed
token list of the just-closed chunk: count how many trailing sentences are
consumed before the accumulated token count reaches `overlap`. -/
def overlapWalk (overlap : Int) (cum : Nat) : List Nat → Nat
  | [] => 0
  | t :: ts =>
    if (cum : Int) < overlap then 1 + overlapWalk overlap (cum + t) ts
    else 0

/-- The chunk materialized when the packing loop closes the chunk of `k`
sentences starting at index `i` (chunker.py lines 172-179): its text is the
space-join of `sentences[i : i + k]` stripped, its token count is recomputed
on that text, and its inclusive sentence range is `[i, i + k - 1]`. -/
def packChunk (tok : Str → Nat) (sentences : List Str) (i cid k : Nat) : Chunk :=
  { chunk_id := cid, text := pyStrip (joinSp ((sentences.drop i).take k)),
    token_count := tok (pyStrip (joinSp ((sentences.drop i).take k))),
    start_sentence := i, end_sentence := i + (k - 1), title := none }

/-- The outer packing loop of `pack_sentences_into_chunks` (chunker.py
lines 156-193).  `i` is the scan position, `cid` the next chunk id, `acc`
the chunks built so far in reverse.  The loop body always consumes at least
one sentence into a chunk, but the overlap rewind
`i = max(j + 1, start_i)` may move `i` back to exactly `start_i`, in which
case the loop never terminates; `fuel` counts remaining iterations and the
function returns `none` when it runs out with the loop still running. -/
def packLoop (tok : Str → Nat) (maxTokens overlapTokens : Int)
    (sentences : List Str) (toks : List Nat) :
    Nat → Nat → Nat → List Chunk → Option (List Chunk)
  | 0, i, _, acc => if i < sentences.length then none else some acc.reverse
  | fuel + 1, i, cid, acc =>
    if i < sentences.length then
      match toks.drop i with
      | [] => none
      | t :: ts =>
        let k := takeCount maxTokens t ts
        let c := packChunk tok sentences i cid k
        if sentences.length ≤ i + k || overlapTokens = 0 then
          packLoop tok maxTokens overlapTokens sentences toks fuel (i + k) (cid + 1) (c :: acc)
        else
          let m := overlapWalk overlapTokens 0 (((toks.drop i).take k).reverse)
          packLoop tok maxTokens overlapTokens sentences toks fuel (i + (k - m)) (cid + 1) (c :: acc)
    else some acc.reverse

/-- Embedding of `pack_sentences_into_chunks` (chunker.py lines 129-193).
`Except.error` is the raised `ValueError`; `Except.ok none` means the fuel
ran out, i.e. the Python loop has not terminated within `fuel` iterations. -/
def pack_sentences_into_chunks (tok : Str → Nat) (sentences : List Str)
    (maxTokens overlapTokens : Int) (fuel : Nat) :
    Except String (Option (List Chunk)) :=
  if maxTokens ≤ 0 then .error "max_tokens must be > 0"
  else if overlapTokens < 0 then .error "overlap_tokens must be >= 0"
  else .ok (packLoop tok maxTokens overlapTokens sentences
    (sentence_token_counts tok sentences) fuel 0 0 [])

/-- Embedding of `chunk_text` (chunker.py lines 196-214). -/
def chunk_text (tok : Str → Nat) (text : Str) (maxTokens overlapTokens : Int)
    (fuel : Nat) : Except String (Option (List Chunk)) :=
  pack_sentences_into_chunks tok
    ((split_into_paragraphs text).map split_paragraph_into_sentences).flatten
    maxTokens overlapTokens fuel

/-- Greedy zero-overlap grouping of sentences under `cap`, the re-packing
loop of `enforce_hard_cap` (chunker.py lines 247-260) expressed as the list
of sentence groups it forms.  Each round consumes at least one sentence, so
fuel `length + 1` suffices. -/
def packGroupsF (tok : Str → Nat) (cap : Int) : Nat → List Str → List (List Str)
  | 0, _ => []
  | _ + 1, [] => []
  | fuel + 1, s :: ss =>
    let e := extendCount cap (tok s) (ss.map tok)
    (s :: ss.take e) :: packGroupsF tok cap fuel (ss.drop e)

/-- The sentence groups `enforce_hard_cap` forms when re-splitting one
oversized chunk. -/
def packGroups (tok : Str → Nat) (cap : Int) (ss : List Str) : List (List Str) :=
  packGroupsF tok cap (ss.length + 1) ss

/-- Build the sub-chunks of one oversized chunk from its sentence groups
(chunker.py lines 261-270): group starting at local index `a` covers global
sentences `g0 + a .. g0 + a + (size - 1)`, its text is the space-join of its
sentences (stripped), and its token count is recomputed on that text.
`chunk_id` is written by the final renumbering. -/
def buildPieces (tok : Str → Nat) (title : Option Str) (g0 : Nat) :
    Nat → List (List Str) → List Chunk
  | _, [] => []
  | a, g :: gs =>
    { chunk_id := 0, text := pyStrip (joinSp g),
      token_count := tok (pyStrip (joinSp g)),
      start_sentence := g0 + a, end_sentence := g0 + (a + (g.length - 1)),
      title := title } :: buildPieces tok title g0 (a + g.length) gs

/-- Processing of one chunk by `enforce_hard_cap`: pass it through when its
stored token count is within `cap`, otherwise re-split its own text by
sentences and re-pack with zero overlap. -/
def capPieces (tok : Str → Nat) (cap : Int) (c : Chunk) : List Chunk :=
  if (c.token_count : Int) ≤ cap then [c]
  else buildPieces tok c.title c.start_sentence 0
    (packGroups tok cap (split_paragraph_into_sentences c.text))

/-- Concatenate the per-chunk output of `capPieces` over the input list. -/
def capExpand (tok : Str → Nat) (cap : Int) : List Chunk → List Chunk
  | [] => []
  | c :: rest => capPieces tok cap c ++ capExpand tok cap rest

/-- Reassign `chunk_id` sequentially starting at `k`.  In the Python code
`next_id` starts at 0 and is incremented once per appended chunk, so each
output chunk's id equals its position in the output list; renumbering the
concatenated output reproduces that weaving exactly. -/
def renumberFrom (k : Nat) : List Chunk → List Chunk
  | [] => []
  | c :: rest => { c with chunk_id := k } :: renumberFrom (k + 1) rest

/-- Embedding of `enforce_hard_cap` (chunker.py lines 219-271). -/
def enforce_hard_cap (tok : Str → Nat) (chunks : List Chunk) (cap : Int) :
    List Chunk :=
  renumberFrom 0 (capExpand tok cap chunks)

/-- The literal placeholder text used when both body and title are absent. -/
def untitledText : Str := ("<Untitled>").toList

/-- Decimal rendering of a natural number, for the `f"part {i}/{total}"`
interpolation. -/
def natStr (n : Nat) : Str := (toString n).toList

/-- The `f"part {i}/{total}"` label. -/
def partLabel (i total : Nat) : Str :=
  ("part ").toList ++ natStr i ++ ("/").toList ++ natStr total

/-- Python `str.capitalize()`: first character uppercased, the rest
lowercased. -/
def capFirst : Str → Str
  | [] => []
  | c :: rest => c.toUpper :: rest.map Char.toLower

/-- The final mutation pass of `create_chunks_for_document` (chunker.py
lines 318-324), applied only when more than one chunk was produced: each
chunk receives a part title and the shared context prefix, and its token
count is recomputed over the prefixed text.  `i` starts at 1
(`enumerate(chunks, start=1)`). -/
def assignParts (tok : Str → Nat) (title pre : Str) (total : Nat) :
    Nat → List Chunk → List Chunk
  | _, [] => []
  | i, c :: rest =>
    let part := partLabel i total
    let newTitle := if title = [] then capFirst part
      else title ++ (" (").toList ++ part ++ (")").toList
    let text := pre ++ c.text
    { chunk_id := c.chunk_id, text := text, token_count := tok text,
      start_sentence := c.start_sentence, end_sentence := c.end_sentence,
      title := some newTitle } :: assignParts tok title pre total (i + 1) rest

/-- Embedding of `create_chunks_for_document` (chunker.py lines 274-326).
The `fuel` argument is passed to the packing loop; `Except.ok none` again
means the packing loop did not terminate within `fuel` iterations. -/
def create_chunks_for_document (tok : Str → Nat) (title body : Str)
    (chunkSize overlapTokens maxEmbedTokens : Int) (fuel : Nat) :
    Except String (Option (List Chunk)) :=
  if body = [] ∨ pyStrip body = [] then
    let text := if title = [] then untitledText else title
    .ok (some [{ chunk_id := 0, text := text, token_count := tok text,
                 start_sentence := 0, end_sentence := 0, title := some title }])
  else
    match chunk_text tok (md_to_text body) chunkSize overlapTokens fuel with
    | .error e => .error e
    | .ok none => .ok none
    | .ok (some chunks) =>
      let capped := enforce_hard_cap tok chunks (maxEmbedTokens - 200)
      let pre := if title = [] then []
        else ("Title: ").toList ++ title ++ ("\n\n").toList
      if 1 < capped.length then
        .ok (some (assignParts tok title pre capped.length 1 capped))
      else .ok (some capped)

/-!
Predicates used by the verification.
-/

/-- No `_SENT_END_RE` match fires anywhere while scanning through `p`
followed by the continuation `t`, starting with lookbehind `prev`. -/
def nfThru (prev : Char) : Str → Str → Bool
  | [], _ => true
  | c :: p, t => !(isEnd prev && (tryMatch (c :: (p ++ t))).isSome) && nfThru c p t

/-- Every element except possibly the last satisfies `P`. -/
def AllButLast (P : Str → Prop) : List Str → Prop
  | [] => True
  | [_] => True
  | x :: y :: r => P x ∧ AllButLast P (y :: r)

/-- Structural facts true of every sentence produced by the splitter:
non-empty, stripped, newline-free, and containing no internal sentence
boundary. -/
def GoodSent (s : Str) : Prop :=
  s ≠ [] ∧ Stripped s ∧ '\n' ∉ s ∧ nfThru ' ' s [] = true

/-- The sentence ends with sentence-ending punctuation. -/
def EndsEnd (s : Str) : Prop :=
  ∃ c, s.getLast? = some c ∧ isEnd c = true

/-- The sentence starts with a character of the lookahead class. -/
def StartsLA (s : Str) : Prop :=
  ∃ c, s.head? = some c ∧ isLA c = true

/-- Every element after the first starts with a lookahead-class
character. -/
def TailsLA (l : List Str) : Prop :=
  ∀ p ∈ l.tail, StartsLA p

/-- Subadditivity of a tokenizer over the single-space joins performed by
the chunker: joining two texts with one space never costs more tokens than
tokenizing them separately.  This models the byte-pair-encoding tokenizer
behind `count_tokens`, for which the spec assumes the greedy repacking
guarantee. -/
def SpaceSubadd (tok : Str → Nat) : Prop :=
  ∀ a b : Str, tok (a ++ ' ' :: b) ≤ tok a + tok b

/-- Equality of chunks on every field except `chunk_id` (which the hard-cap
enforcer reassigns). -/
def eqUpToId (c d : Chunk) : Prop :=
  c.text = d.text ∧ c.token_count = d.token_count ∧
    c.start_sentence = d.start_sentence ∧ c.end_sentence = d.end_sentence ∧
    c.title = d.title

/-- The length tokenizer, used to instantiate witnesses. -/
def lenTok : Str → Nat := List.length

/-- A tokenizer counting non-space characters; it satisfies
`SpaceSubadd`. -/
def nonSpaceTok : Str → Nat := fun l => (l.filter (· ≠ ' ')).length

/-!
Basic character and string lemmas.
-/

theorem ws_cases {c : Char} (h : ws c = true) :
    c = ' ' ∨ c = '\t' ∨ c = '\n' ∨ c = '\r' ∨ c = Char.ofNat 11 ∨ c = Char.ofNat 12 := by
  simp only [ws, Bool.or_eq_true, decide_eq_true_eq] at h
  tauto

theorem isEnd_cases {c : Char} (h : isEnd c = true) : c = '.' ∨ c = '!' ∨ c = '?' := by
  simp only [isEnd, Bool.or_eq_true, decide_eq_true_eq] at h
  tauto

theorem isEnd_not_ws {c : Char} (h : isEnd c = true) : ws c = false := by
  rcases isEnd_cases h with rfl | rfl | rfl <;> decide

theorem isEnd_not_isQ {c : Char} (h : isEnd c = true) : isQ c = false := by
  rcases isEnd_cases h with rfl | rfl | rfl <;> decide

theorem ws_not_isLA {c : Char} (h : ws c = true) : isLA c = false := by
  rcases ws_cases h with rfl | rfl | rfl | rfl | rfl | rfl <;> decide

theorem isLA_not_ws {c : Char} (h : isLA c = true) : ws c = false := by
  cases hw : ws c
  · rfl
  · rw [ws_not_isLA hw] at h
    exact absurd h (by simp)

theorem dropWhile_head_false {p : Char → Bool} :
    ∀ {l : Str} {c : Char}, (l.dropWhile p).head? = some c → p c = false := by
  intro l
  induction l with
  | nil => intro c h; simp [List.dropWhile] at h
  | cons a as ih =>
    intro c h
    by_cases hp : p a = true
    · rw [List.dropWhile_cons, if_pos hp] at h
      exact ih h
    · rw [List.dropWhile_cons, if_neg hp] at h
      simp at h
      rw [← h]
      exact Bool.eq_false_iff.mpr hp

theorem dropWhile_eq_self_of_head {p : Char → Bool} {l : Str}
    (h : ∀ c, l.head? = some c → p c = false) : l.dropWhile p = l := by
  cases l with
  | nil => rfl
  | cons a as =>
    rw [List.dropWhile_cons, if_neg]
    simp [h a rfl]

theorem exists_dropWhile_decomp {p : Char → Bool} :
    ∀ l : Str, ∃ pre, l = pre ++ l.dropWhile p := by
  intro l
  induction l with
  | nil => exact ⟨[], rfl⟩
  | cons a as ih =>
    by_cases hp : p a = true
    · obtain ⟨pre, hpre⟩ := ih
      refine ⟨a :: pre, ?_⟩
      rw [List.dropWhile_cons, if_pos hp]
      simpa using hpre
    · exact ⟨[], by rw [List.dropWhile_cons, if_neg hp]; simp⟩

theorem getLast?_append_right {xs ys : Str} (h : ys ≠ []) :
    (xs ++ ys).getLast? = ys.getLast? :=
  List.getLast?_append_of_ne_nil xs h

theorem dropWhile_getLast? {p : Char → Bool} {l : Str}
    (h : l.dropWhile p ≠ []) : (l.dropWhile p).getLast? = l.getLast? := by
  obtain ⟨pre, hpre⟩ := @exists_dropWhile_decomp p l
  conv_rhs => rw [hpre]
  rw [getLast?_append_right h]

theorem stripped_nil : Stripped [] := by
  constructor <;> intro h hh <;> simp at hh

theorem pyStrip_nil : pyStrip [] = [] := rfl

theorem pyStrip_stripped (l : Str) : Stripped (pyStrip l) := by
  unfold pyStrip
  set A := l.dropWhile ws with hA
  set B := A.reverse.dropWhile ws with hB
  by_cases hBn : B = []
  · rw [hBn]
    exact stripped_nil
  constructor
  · intro h hh
    rw [List.head?_reverse] at hh
    rw [dropWhile_getLast? hBn, List.getLast?_reverse] at hh
    exact dropWhile_head_false hh
  · intro h hh
    rw [List.getLast?_reverse] at hh
    exact dropWhile_head_false hh

theorem pyStrip_eq_self {l : Str} (h : Stripped l) : pyStrip l = l := by
  have h1 : l.dropWhile ws = l :=
    dropWhile_eq_self_of_head (fun c hc => h.1 c hc)
  have h2 : l.reverse.dropWhile ws = l.reverse := by
    refine dropWhile_eq_self_of_head (fun c hc => ?_)
    rw [List.head?_reverse] at hc
    exact h.2 c hc
  unfold pyStrip
  rw [h1, h2, List.reverse_reverse]

/-!
Lemmas about `collapseNl`.
-/

theorem nlFlush_no_nl (run : Str) : '\n' ∉ nlFlush run := by
  unfold nlFlush
  by_cases h : '\n' ∈ run
  · rw [if_pos h]
    intro hm
    simp at hm
  · rw [if_neg h]
    intro hm
    exact h (List.mem_reverse.mp hm)

theorem collapseNlGo_no_nl : ∀ (l run : Str), '\n' ∉ collapseNlGo run l := by
  intro l
  induction l with
  | nil => intro run; exact nlFlush_no_nl run
  | cons c rest ih =>
    intro run
    unfold collapseNlGo
    by_cases hw : ws c = true
    · rw [if_pos hw]
      exact ih _
    · rw [if_neg hw]
      intro hm
      rcases List.mem_append.mp hm with h1 | h2
      · exact nlFlush_no_nl run h1
      · rcases List.mem_cons.mp h2 with rfl | h3
        · exact absurd (by decide : ws '\n' = true) (by simp [hw])
        · exact ih [] h3

theorem collapseNl_no_nl (l : Str) : '\n' ∉ collapseNl l :=
  collapseNlGo_no_nl l []

theorem collapseNlGo_of_no_nl :
    ∀ (l run : Str), '\n' ∉ run → '\n' ∉ l → collapseNlGo run l = run.reverse ++ l := by
  intro l
  induction l with
  | nil =>
    intro run hrun _
    unfold collapseNlGo nlFlush
    rw [if_neg hrun]
    simp
  | cons c rest ih =>
    intro run hrun hl
    have hc : c ≠ '\n' := fun h => hl (h ▸ List.mem_cons_self c rest)
    have hrest : '\n' ∉ rest := fun h => hl (List.mem_cons_of_mem c h)
    unfold collapseNlGo
    by_cases hw : ws c = true
    · rw [if_pos hw, ih (c :: run) (by simp [hc.symm, hrun]) hrest]
      simp
    · rw [if_neg hw, ih [] (by simp) hrest]
      unfold nlFlush
      rw [if_neg hrun]
      simp

theorem collapseNl_of_no_nl {l : Str} (h : '\n' ∉ l) : collapseNl l = l := by
  unfold collapseNl
  rw [collapseNlGo_of_no_nl l [] (by simp) h]
  simp

theorem collapseNlGo_nil (run : Str) : collapseNlGo run [] = nlFlush run := rfl

theorem collapseNlGo_cons (run : Str) (c : Char) (rest : Str) :
    collapseNlGo run (c :: rest) =
      if ws c then collapseNlGo (c :: run) rest
      else nlFlush run ++ c :: collapseNlGo [] rest := rfl

theorem nlFlush_nil : nlFlush ([] : Str) = [] := by simp [nlFlush]

theorem collapseNl_head {c : Char} {rest : Str} (h : ws c = false) :
    collapseNl (c :: rest) = c :: collapseNlGo [] rest := by
  unfold collapseNl
  rw [collapseNlGo_cons, if_neg (by simp [h]), nlFlush_nil, List.nil_append]

theorem collapseNlGo_getLast? :
    ∀ (l : Str), l ≠ [] → (∀ e, l.getLast? = some e → ws e = false) →
      ∀ run, (collapseNlGo run l).getLast? = l.getLast? ∧ collapseNlGo run l ≠ [] := by
  intro l
  induction l with
  | nil => intro h; exact absurd rfl h
  | cons c rest ih =>
    intro _ hlast run
    cases rest with
    | nil =>
      have hc : ws c = false := hlast c (by simp)
      rw [collapseNlGo_cons, if_neg (by simp [hc]), collapseNlGo_nil, nlFlush_nil]
      refine ⟨?_, by simp⟩
      rw [getLast?_append_right (by simp)]
    | cons d ds =>
      have h2 : ∀ e, (d :: ds).getLast? = some e → ws e = false := by
        intro e he
        apply hlast
        rw [List.getLast?_cons_cons]
        exact he
      rw [collapseNlGo_cons, List.getLast?_cons_cons]
      by_cases hw : ws c = true
      · rw [if_pos hw]
        exact ih (by simp) h2 (c :: run)
      · rw [if_neg hw]
        have hi := ih (by simp) h2 []
        refine ⟨?_, by simp⟩
        rw [getLast?_append_right (by simp), List.getLast?_cons, hi.1]
        cases hg : (d :: ds).getLast? with
        | none => exact absurd (List.getLast?_eq_none_iff.mp hg) (by simp)
        | some e => simp

theorem collapseNl_stripped {l : Str} (h : Stripped l) : Stripped (collapseNl l) := by
  cases l with
  | nil => exact stripped_nil
  | cons c rest =>
    have hc : ws c = false := h.1 c rfl
    rw [collapseNl_head hc]
    constructor
    · intro x hx
      simp at hx
      rw [← hx]
      exact hc
    · intro x hx
      cases rest with
      | nil =>
        rw [collapseNlGo_nil, nlFlush_nil] at hx
        simp at hx
        rw [← hx]
        exact hc
      | cons d ds =>
        have h2 : ∀ e, (d :: ds).getLast? = some e → ws e = false := by
          intro e he
          apply h.2
          rw [List.getLast?_cons_cons]
          exact he
        have hgo := collapseNlGo_getLast? (d :: ds) (by simp) h2 []
        rw [List.getLast?_cons, hgo.1] at hx
        cases hg : (d :: ds).getLast? with
        | none => exact absurd (List.getLast?_eq_none_iff.mp hg) (by simp)
        | some e =>
          rw [hg] at hx
          simp at hx
          rw [← hx]
          exact h2 e hg

theorem collapseNl_ne_nil {l : Str} (hl : l ≠ []) (h : Stripped l) :
    collapseNl l ≠ [] := by
  cases l with
  | nil => exact absurd rfl hl
  | cons c rest =>
    rw [collapseNl_head (h.1 c rfl)]
    simp

/-!
Lemmas about `joinSp`.
-/

theorem joinSp_nil : joinSp [] = [] := rfl

theorem joinSp_single (s : Str) : joinSp [s] = s := rfl

theorem joinSp_cons_cons (s r : Str) (t : List Str) :
    joinSp (s :: r :: t) = s ++ ' ' :: joinSp (r :: t) := rfl

theorem joinSp_ne_nil {g : List Str} (hg : g ≠ []) (h : ∀ s ∈ g, s ≠ []) :
    joinSp g ≠ [] := by
  cases g with
  | nil => exact absurd rfl hg
  | cons s t =>
    cases t with
    | nil => exact h s (by simp)
    | cons r u =>
      rw [joinSp_cons_cons]
      intro hx
      simp at hx

theorem joinSp_head? {s : Str} {t : List Str} (hs : s ≠ []) :
    (joinSp (s :: t)).head? = s.head? := by
  cases t with
  | nil => rfl
  | cons r u =>
    rw [joinSp_cons_cons, List.head?_append]
    cases hh : s.head? with
    | none => exact absurd (List.head?_eq_none_iff.mp hh) hs
    | some c => rfl

theorem joinSp_getLast? :
    ∀ {g : List Str}, g ≠ [] → (∀ s ∈ g, s ≠ []) →
      ∃ sl ∈ g, (joinSp g).getLast? = sl.getLast? := by
  intro g
  induction g with
  | nil => intro hg _; exact absurd rfl hg
  | cons s t ih =>
    intro _ h
    cases t with
    | nil => exact ⟨s, by simp, rfl⟩
    | cons r u =>
      obtain ⟨sl, hsl, hlast⟩ := ih (by simp) (fun x hx => h x (List.mem_cons_of_mem s hx))
      refine ⟨sl, List.mem_cons_of_mem s hsl, ?_⟩
      rw [joinSp_cons_cons, getLast?_append_right, List.getLast?_cons, hlast]
      · have hjn : joinSp (r :: u) ≠ [] :=
          joinSp_ne_nil (by simp) (fun x hx => h x (List.mem_cons_of_mem s hx))
        cases hg : (joinSp (r :: u)).getLast? with
        | none => exact absurd (List.getLast?_eq_none_iff.mp hg) hjn
        | some b =>
          rw [hg] at hlast
          rw [← hlast]
          simp
      · simp

theorem joinSp_stripped {g : List Str} (hg : g ≠ [])
    (h : ∀ s ∈ g, s ≠ [] ∧ Stripped s) : Stripped (joinSp g) := by
  cases g with
  | nil => exact absurd rfl hg
  | cons s t =>
    constructor
    · intro c hc
      rw [joinSp_head? (h s (by simp)).1] at hc
      exact (h s (by simp)).2.1 c hc
    · intro c hc
      obtain ⟨sl, hsl, hlast⟩ :=
        @joinSp_getLast? (s :: t) (by simp) (fun x hx => (h x hx).1)
      rw [hlast] at hc
      exact (h sl hsl).2.2 c hc

theorem joinSp_mem {g : List Str} {c : Char} (hc : c ∈ joinSp g) :
    c = ' ' ∨ ∃ s ∈ g, c ∈ s := by
  induction g with
  | nil => simp [joinSp_nil] at hc
  | cons s t ih =>
    cases t with
    | nil =>
      rw [joinSp_single] at hc
      exact Or.inr ⟨s, by simp, hc⟩
    | cons r u =>
      rw [joinSp_cons_cons] at hc
      rcases List.mem_append.mp hc with h1 | h2
      · exact Or.inr ⟨s, by simp, h1⟩
      · rcases List.mem_cons.mp h2 with rfl | h3
        · exact Or.inl rfl
        · rcases ih h3 with h4 | ⟨x, hx, hcx⟩
          · exact Or.inl h4
          · exact Or.inr ⟨x, List.mem_cons_of_mem s hx, hcx⟩

theorem joinSp_no_nl {g : List Str} (h : ∀ s ∈ g, '\n' ∉ s) :
    '\n' ∉ joinSp g := by
  intro hm
  rcases joinSp_mem hm with h1 | ⟨s, hs, hcs⟩
  · simp at h1
  · exact h s hs hcs

/-!
Lemmas about `tmCore` and `tryMatch`.
-/

theorem tmLook_cons (d : Char) (r : Str) :
    tmLook (d :: r) = if isLA d then some (d :: r) else none := rfl

theorem tmCore_cons (c : Char) (cs : Str) :
    tmCore (c :: cs) = if ws c then tmLook ((c :: cs).dropWhile ws) else none := rfl

theorem tryMatch_cons (c : Char) (cs : Str) :
    tryMatch (c :: cs) = if isQ c then tmCore cs else tmCore (c :: cs) := rfl

theorem tmCore_some {l2 r : Str} (h : tmCore l2 = some r) :
    (∃ w, l2 = w ++ r ∧ w ≠ [] ∧ ∀ x ∈ w, ws x = true) ∧
      ∃ d rr, r = d :: rr ∧ isLA d = true := by
  cases l2 with
  | nil => simp [tmCore] at h
  | cons c cs =>
    rw [tmCore_cons] at h
    by_cases hw : ws c = true
    · rw [if_pos hw] at h
      cases hd : (c :: cs).dropWhile ws with
      | nil => rw [hd] at h; simp [tmLook] at h
      | cons d rr =>
        rw [hd, tmLook_cons] at h
        by_cases hla : isLA d = true
        · rw [if_pos hla] at h
          simp at h
          refine ⟨⟨(c :: cs).takeWhile ws, ?_, ?_, ?_⟩, d, rr, h.symm, hla⟩
          · rw [← h, ← hd, List.takeWhile_append_dropWhile]
          · rw [List.takeWhile_cons, if_pos hw]
            simp
          · intro x hx
            exact List.mem_takeWhile_imp hx
        · rw [if_neg hla] at h
          simp at h
    · rw [if_neg hw] at h
      simp at h

theorem tmCore_none_of_head {l2 : Str} {c : Char} (hh : l2.head? = some c)
    (hw : ws c = false) : tmCore l2 = none := by
  cases l2 with
  | nil => rfl
  | cons a as =>
    simp at hh
    subst hh
    rw [tmCore_cons, if_neg (by simp [hw])]

theorem tryMatch_nil : tryMatch [] = none := rfl

theorem tryMatch_some {l r : Str} (h : tryMatch l = some r) :
    (∃ q w, l = q ++ w ++ r ∧ w ≠ [] ∧ ∀ x ∈ w, ws x = true) ∧
      ∃ d rr, r = d :: rr ∧ isLA d = true := by
  cases l with
  | nil => simp [tryMatch] at h
  | cons c cs =>
    rw [tryMatch_cons] at h
    by_cases hq : isQ c = true
    · rw [if_pos hq] at h
      obtain ⟨⟨w, hw1, hw2, hw3⟩, hd⟩ := tmCore_some h
      exact ⟨⟨[c], w, by simp [hw1], hw2, hw3⟩, hd⟩
    · rw [if_neg hq] at h
      obtain ⟨⟨w, hw1, hw2, hw3⟩, hd⟩ := tmCore_some h
      exact ⟨⟨[], w, by simp [hw1], hw2, hw3⟩, hd⟩

theorem tryMatch_length {l r : Str} (h : tryMatch l = some r) :
    r.length < l.length := by
  obtain ⟨⟨q, w, hl, hw, _⟩, _⟩ := tryMatch_some h
  rw [hl]
  cases w with
  | nil => exact absurd rfl hw
  | cons a as => simp; omega

theorem dropWhile_append_of_ne_nil {p : Char → Bool} :
    ∀ {l : Str} (t : Str), l.dropWhile p ≠ [] →
      (l ++ t).dropWhile p = l.dropWhile p ++ t := by
  intro l
  induction l with
  | nil => intro t h; exact absurd rfl h
  | cons a as ih =>
    intro t h
    by_cases hp : p a = true
    · rw [List.dropWhile_cons, if_pos hp] at h
      rw [List.cons_append, List.dropWhile_cons, if_pos hp, ih t h,
        List.dropWhile_cons, if_pos hp]
    · rw [List.cons_append, List.dropWhile_cons, if_neg hp,
        List.dropWhile_cons, if_neg hp, List.cons_append]

theorem dropWhile_ne_nil_of_getLast {p : Char → Bool} {l : Str} {e : Char}
    (h : l.getLast? = some e) (he : p e = false) : l.dropWhile p ≠ [] := by
  intro hnil
  have hall := List.dropWhile_eq_nil_iff.mp hnil
  have hmem : e ∈ l := by
    have := @List.mem_of_mem_getLast? _ l e
    exact this (by rw [h]; simp)
  exact absurd (hall e hmem) (by simp [he])

theorem tmCore_append_isSome {s : Str} (t : Str) {e : Char} (hs : s ≠ [])
    (he : s.getLast? = some e) (hew : ws e = false) :
    (tmCore (s ++ t)).isSome = (tmCore s).isSome := by
  cases s with
  | nil => exact absurd rfl hs
  | cons c cs =>
    rw [List.cons_append, tmCore_cons, tmCore_cons]
    by_cases hw : ws c = true
    · have hdw : (c :: cs).dropWhile ws ≠ [] :=
        dropWhile_ne_nil_of_getLast he hew
      rw [if_pos hw, if_pos hw, ← List.cons_append,
        dropWhile_append_of_ne_nil t hdw]
      cases hd : (c :: cs).dropWhile ws with
      | nil => exact absurd hd hdw
      | cons d rr =>
        rw [List.cons_append, tmLook_cons, tmLook_cons]
        by_cases hla : isLA d = true
        · rw [if_pos hla, if_pos hla]
          rfl
        · rw [if_neg hla, if_neg hla]
    · rw [if_neg hw, if_neg hw]

theorem tryMatch_append_isSome {s : Str} (t : Str) {e : Char} (hs : s ≠ [])
    (he : s.getLast? = some e) (hew : ws e = false) (heq : isQ e = false) :
    (tryMatch (s ++ t)).isSome = (tryMatch s).isSome := by
  cases s with
  | nil => exact absurd rfl hs
  | cons c cs =>
    rw [List.cons_append, tryMatch_cons, tryMatch_cons]
    cases cs with
    | nil =>
      simp at he
      subst he
      rw [if_neg (by simp [heq]), if_neg (by simp [heq])]
      have h1 : tmCore (c :: ([] ++ t)) = none :=
        tmCore_none_of_head (by simp) hew
      have h2 : tmCore [c] = none :=
        tmCore_none_of_head (by simp) hew
      rw [h1, h2]
    | cons c2 cs2 =>
      have he2 : (c2 :: cs2).getLast? = some e := by
        rw [List.getLast?_cons_cons] at he
        exact he
      by_cases hq : isQ c = true
      · rw [if_pos hq, if_pos hq]
        exact tmCore_append_isSome t (by simp) he2 hew
      · rw [if_neg hq, if_neg hq, ← List.cons_append]
        exact tmCore_append_isSome t (by simp) (by rw [List.getLast?_cons_cons]; exact he2) hew

/-!
Lemmas about `nfThru`.
-/

theorem nfThru_nil (prev : Char) (t : Str) : nfThru prev [] t = true := rfl

theorem nfThru_cons (prev c : Char) (p t : Str) :
    nfThru prev (c :: p) t =
      (!(isEnd prev && (tryMatch (c :: (p ++ t))).isSome) && nfThru c p t) := rfl

theorem nfThru_irrel {p : Str} {e : Char} (hp : p.getLast? = some e)
    (hee : isEnd e = true) :
    ∀ (prev : Char) (t : Str), nfThru prev p t = nfThru prev p [] := by
  induction p with
  | nil => intro prev t; rfl
  | cons c p' ih =>
    intro prev t
    rw [nfThru_cons, nfThru_cons, List.append_nil]
    have hlast : (c :: p').getLast? = some e := hp
    have hsome : (tryMatch ((c :: p') ++ t)).isSome = (tryMatch (c :: p')).isSome :=
      tryMatch_append_isSome t (by simp) hlast (isEnd_not_ws hee) (isEnd_not_isQ hee)
    rw [List.cons_append] at hsome
    rw [hsome]
    cases p' with
    | nil => rfl
    | cons d ds =>
      have hp' : (d :: ds).getLast? = some e := by
        rw [List.getLast?_cons_cons] at hp
        exact hp
      rw [ih hp' c t]

/-!
Lemmas about `takePart`.
-/

theorem takePart_nil (prev : Char) : takePart prev [] = ([], none) := rfl

theorem takePart_cons (prev c : Char) (rest : Str) :
    takePart prev (c :: rest) =
      match (if isEnd prev then tryMatch (c :: rest) else none) with
      | some r => ([], some r)
      | none => (c :: (takePart c rest).1, (takePart c rest).2) := rfl

theorem takePart_cons_fire {prev c : Char} {rest r : Str}
    (h1 : isEnd prev = true) (h2 : tryMatch (c :: rest) = some r) :
    takePart prev (c :: rest) = ([], some r) := by
  rw [takePart_cons, if_pos h1, h2]

theorem takePart_cons_step {prev c : Char} {rest : Str}
    (h : isEnd prev = false ∨ tryMatch (c :: rest) = none) :
    takePart prev (c :: rest) =
      (c :: (takePart c rest).1, (takePart c rest).2) := by
  rw [takePart_cons]
  rcases h with h | h
  · rw [h]
    simp
  · by_cases hp : isEnd prev = true
    · rw [if_pos hp, h]
    · rw [if_neg hp]

theorem ite_none_eq_none {prev : Char} {l : Str}
    (hf : (if isEnd prev then tryMatch l else none) = none) :
    (isEnd prev && (tryMatch l).isSome) = false := by
  by_cases hp : isEnd prev = true
  · rw [if_pos hp] at hf
    rw [hp, hf]
    rfl
  · rw [Bool.eq_false_iff.mpr hp]
    rfl

theorem takePart_none :
    ∀ {l : Str} {prev : Char} {p : Str}, takePart prev l = (p, none) →
      p = l ∧ nfThru prev p [] = true := by
  intro l
  induction l with
  | nil =>
    intro prev p h
    rw [takePart_nil] at h
    have hp : p = [] := by
      have := congrArg Prod.fst h
      simpa using this.symm
    subst hp
    exact ⟨rfl, rfl⟩
  | cons c rest ih =>
    intro prev p h
    cases hf : (if isEnd prev then tryMatch (c :: rest) else none) with
    | some r =>
      rw [takePart_cons, hf] at h
      simp at h
    | none =>
      have hstep : takePart prev (c :: rest) =
          (c :: (takePart c rest).1, (takePart c rest).2) := by
        rw [takePart_cons, hf]
      rw [hstep] at h
      have h1 : p = c :: (takePart c rest).1 := by
        have := congrArg Prod.fst h
        simpa using this.symm
      have h2 : (takePart c rest).2 = none := by
        have := congrArg Prod.snd h
        simpa using this
      obtain ⟨hq, hnf⟩ := @ih c ((takePart c rest).1)
        (by rw [← h2])
      subst h1
      rw [hq]
      refine ⟨rfl, ?_⟩
      rw [nfThru_cons, List.append_nil, ite_none_eq_none hf]
      simp
      rw [← hq]
      exact hnf

theorem takePart_some :
    ∀ {l : Str} {prev : Char} {p r : Str}, takePart prev l = (p, some r) →
      ∃ mid, l = p ++ mid ∧ tryMatch mid = some r ∧
        isEnd (p.getLast?.getD prev) = true ∧ nfThru prev p mid = true := by
  intro l
  induction l with
  | nil =>
    intro prev p r h
    rw [takePart_nil] at h
    simp at h
  | cons c rest ih =>
    intro prev p r h
    cases hf : (if isEnd prev then tryMatch (c :: rest) else none) with
    | some r0 =>
      rw [takePart_cons, hf] at h
      simp at h
      obtain ⟨hp, hr⟩ := h
      subst hp
      subst hr
      have hprev : isEnd prev = true := by
        by_cases hp : isEnd prev = true
        · exact hp
        · rw [if_neg hp] at hf
          simp at hf
      rw [if_pos hprev] at hf
      exact ⟨c :: rest, rfl, hf, by simpa using hprev, rfl⟩
    | none =>
      have hstep : takePart prev (c :: rest) =
          (c :: (takePart c rest).1, (takePart c rest).2) := by
        rw [takePart_cons, hf]
      rw [hstep] at h
      have h1 : p = c :: (takePart c rest).1 := by
        have := congrArg Prod.fst h
        simpa using this.symm
      have h2 : (takePart c rest).2 = some r := by
        have := congrArg Prod.snd h
        simpa using this
      obtain ⟨mid, hm1, hm2, hm3, hm4⟩ := @ih c ((takePart c rest).1) r
        (by rw [← h2])
      subst h1
      refine ⟨mid, by rw [List.cons_append, ← hm1], hm2, ?_, ?_⟩
      · rw [List.getLast?_cons]
        simpa using hm3
      · rw [nfThru_cons]
        have hfire : (isEnd prev && (tryMatch (c :: ((takePart c rest).1 ++ mid))).isSome) = false := by
          rw [← hm1]
          exact ite_none_eq_none hf
        rw [hfire]
        simpa using hm4

theorem takePart_some_length {l : Str} {prev : Char} {p r : Str}
    (h : takePart prev l = (p, some r)) : r.length < l.length := by
  obtain ⟨mid, hm1, hm2, _, _⟩ := takePart_some h
  have := tryMatch_length hm2
  rw [hm1]
  simp
  omega

theorem takePart_thru :
    ∀ {p : Str} {prev : Char} {mid r : Str},
      nfThru prev p mid = true → isEnd (p.getLast?.getD prev) = true →
      tryMatch mid = some r → takePart prev (p ++ mid) = (p, some r) := by
  intro p
  induction p with
  | nil =>
    intro prev mid r _ hend htm
    cases mid with
    | nil => rw [tryMatch_nil] at htm; simp at htm
    | cons c rest =>
      simp at hend
      exact takePart_cons_fire hend htm
  | cons c p' ih =>
    intro prev mid r hnf hend htm
    rw [nfThru_cons] at hnf
    have h1 : (isEnd prev && (tryMatch (c :: (p' ++ mid))).isSome) = false := by
      have := (Bool.and_eq_true_iff.mp hnf).1
      rwa [Bool.not_eq_true'] at this
    have hnofire : isEnd prev = false ∨ tryMatch (c :: (p' ++ mid)) = none := by
      by_cases hp : isEnd prev = true
      · right
        cases htm2 : tryMatch (c :: (p' ++ mid)) with
        | none => rfl
        | some x =>
          exfalso
          rw [hp, htm2] at h1
          simp at h1
      · exact Or.inl (Bool.eq_false_iff.mpr hp)
    rw [List.cons_append, takePart_cons_step hnofire]
    have hend' : isEnd (p'.getLast?.getD c) = true := by
      rw [List.getLast?_cons] at hend
      simpa using hend
    have hrec := ih (Bool.and_eq_true_iff.mp hnf).2 hend' htm
    rw [hrec]

theorem takePart_none_thru :
    ∀ {p : Str} {prev : Char}, nfThru prev p [] = true →
      takePart prev p = (p, none) := by
  intro p
  induction p with
  | nil => intro prev _; rfl
  | cons c p' ih =>
    intro prev hnf
    rw [nfThru_cons, List.append_nil] at hnf
    have h1 : (isEnd prev && (tryMatch (c :: p')).isSome) = false := by
      have := (Bool.and_eq_true_iff.mp hnf).1
      rwa [Bool.not_eq_true'] at this
    have hnofire : isEnd prev = false ∨ tryMatch (c :: p') = none := by
      by_cases hp : isEnd prev = true
      · right
        cases htm2 : tryMatch (c :: p') with
        | none => rfl
        | some x =>
          exfalso
          rw [hp, htm2] at h1
          simp at h1
      · exact Or.inl (Bool.eq_false_iff.mpr hp)
    rw [takePart_cons_step hnofire, ih (Bool.and_eq_true_iff.mp hnf).2]

/-!
Lemmas about `scanPartsF` and `scanParts`.
-/

theorem spf_succ (f : Nat) (prev : Char) (l : Str) :
    scanPartsF (f + 1) prev l =
      match takePart prev l with
      | (p, none) => [p]
      | (p, some r) => p :: scanPartsF f ' ' r := rfl

theorem spf_succ_none {f : Nat} {prev : Char} {l p : Str}
    (h : takePart prev l = (p, none)) : scanPartsF (f + 1) prev l = [p] := by
  rw [spf_succ, h]

theorem spf_succ_some {f : Nat} {prev : Char} {l p r : Str}
    (h : takePart prev l = (p, some r)) :
    scanPartsF (f + 1) prev l = p :: scanPartsF f ' ' r := by
  rw [spf_succ, h]

theorem spf_inv :
    ∀ (f1 f2 : Nat) (prev : Char) (l : Str), l.length < f1 → l.length < f2 →
      scanPartsF f1 prev l = scanPartsF f2 prev l := by
  intro f1
  induction f1 with
  | zero => intro f2 prev l h; omega
  | succ f ih =>
    intro f2 prev l h1 h2
    cases f2 with
    | zero => omega
    | succ g =>
      cases htp : takePart prev l with
      | mk p o =>
        cases o with
        | none => rw [spf_succ_none htp, spf_succ_none htp]
        | some r =>
          have hr := takePart_some_length htp
          rw [spf_succ_some htp, spf_succ_some htp,
            ih g ' ' r (by omega) (by omega)]

theorem head?_append_left {p t : Str} (h : p ≠ []) :
    (p ++ t).head? = p.head? := by
  cases p with
  | nil => exact absurd rfl h
  | cons a as => rfl

theorem spf_first (f : Nat) {prev c : Char} (rest : Str) (hp : isEnd prev = false) :
    ∃ ps, scanPartsF (f + 1) prev (c :: rest) =
      (c :: (takePart c rest).1) :: ps := by
  have hstep := @takePart_cons_step prev c rest (Or.inl hp)
  cases ho : (takePart c rest).2 with
  | none =>
    refine ⟨[], ?_⟩
    rw [spf_succ_none (by rw [hstep, ho])]
  | some r =>
    refine ⟨scanPartsF f ' ' r, ?_⟩
    rw [spf_succ_some (by rw [hstep, ho])]

theorem spf_head? (f : Nat) (prev : Char) (l : Str) (hne : l ≠ [])
    (hp : isEnd prev = false) :
    ∃ x ps, scanPartsF f prev l = x :: ps ∧ x.head? = l.head? ∧ x ≠ [] := by
  cases l with
  | nil => exact absurd rfl hne
  | cons c rest =>
    cases f with
    | zero => exact ⟨c :: rest, [], rfl, rfl, by simp⟩
    | succ g =>
      obtain ⟨ps, hps⟩ := spf_first g rest hp
      exact ⟨c :: (takePart c rest).1, ps, hps, rfl, by simp⟩

theorem scanPartsF_props :
    ∀ (f : Nat) (l : Str), l.length < f → l ≠ [] → Stripped l →
      (∀ p ∈ scanPartsF f ' ' l,
        p ≠ [] ∧ (∀ c ∈ p, c ∈ l) ∧ Stripped p ∧ nfThru ' ' p [] = true) ∧
      TailsLA (scanPartsF f ' ' l) ∧
      AllButLast EndsEnd (scanPartsF f ' ' l) ∧
      ∃ pl ps, scanPartsF f ' ' l = ps ++ [pl] ∧ pl.getLast? = l.getLast? := by
  intro f
  induction f with
  | zero => intro l h; omega
  | succ f ih =>
    intro l hlen hne hstr
    cases htp : takePart ' ' l with
    | mk p o =>
      cases o with
      | none =>
        obtain ⟨hpl, hnf⟩ := takePart_none htp
        subst hpl
        rw [spf_succ_none htp]
        refine ⟨?_, ?_, ?_, ⟨p, [], rfl, rfl⟩⟩
        · intro x hx
          simp at hx
          subst hx
          exact ⟨hne, fun c hc => hc, hstr, hnf⟩
        · intro x hx
          simp at hx
        · exact trivial
      | some r =>
        obtain ⟨mid, hm1, hm2, hm3, hm4⟩ := takePart_some htp
        have hpne : p ≠ [] := by
          intro hp0
          rw [hp0] at hm3
          simp at hm3
          exact absurd hm3 (by decide)
        obtain ⟨e, hpe, hee⟩ : ∃ e, p.getLast? = some e ∧ isEnd e = true := by
          cases hg : p.getLast? with
          | none => exact absurd (List.getLast?_eq_none_iff.mp hg) hpne
          | some b =>
            rw [hg] at hm3
            exact ⟨b, rfl, by simpa using hm3⟩
        have hEnds : EndsEnd p := ⟨e, hpe, hee⟩
        have hnfp : nfThru ' ' p [] = true := by
          rw [← nfThru_irrel hpe hee ' ' mid]
          exact hm4
        have hphead : p.head? = l.head? := by
          rw [hm1, head?_append_left hpne]
        have hstrp : Stripped p := by
          constructor
          · intro h hh
            exact hstr.1 h (by rw [← hphead]; exact hh)
          · intro h hh
            rw [hpe] at hh
            simp at hh
            rw [← hh]
            exact isEnd_not_ws hee
        obtain ⟨⟨q, w, hmid, hwne, _⟩, d, rr, hrd, hla⟩ := tryMatch_some hm2
        have hrne : r ≠ [] := by rw [hrd]; simp
        have hrlast : r.getLast? = l.getLast? := by
          rw [hm1, hmid]
          rw [getLast?_append_right (by simp [hrne]),
            getLast?_append_right hrne]
        have hmemr : ∀ c, c ∈ r → c ∈ l := by
          intro c hc
          rw [hm1, hmid]
          simp [hc]
        have hstrr : Stripped r := by
          constructor
          · intro h hh
            rw [hrd] at hh
            simp at hh
            rw [← hh]
            exact isLA_not_ws hla
          · intro h hh
            exact hstr.2 h (by rw [← hrlast]; exact hh)
        have hrlen : r.length < f := by
          have := takePart_some_length htp
          omega
        obtain ⟨ihall, ihtails, ihabl, pl, ps, ihlast, ihpl⟩ :=
          ih r hrlen hrne hstrr
        rw [spf_succ_some htp]
        refine ⟨?_, ?_, ?_, ⟨pl, p :: ps, by rw [ihlast]; rfl, by rw [ihpl, hrlast]⟩⟩
        · intro x hx
          rcases List.mem_cons.mp hx with rfl | hx2
          · refine ⟨hpne, ?_, hstrp, hnfp⟩
            intro c hc
            rw [hm1]
            exact List.mem_append_left mid hc
          · obtain ⟨a1, a2, a3, a4⟩ := ihall x hx2
            exact ⟨a1, fun c hc => hmemr c (a2 c hc), a3, a4⟩
        · intro x hx
          rw [List.tail_cons] at hx
          obtain ⟨y, ps2, hps2, hyh, hyne⟩ := spf_head? f ' ' r hrne (by decide)
          rw [hps2] at hx
          rcases List.mem_cons.mp hx with rfl | hx2
          · refine ⟨d, ?_, hla⟩
            rw [hyh, hrd]
            rfl
          · have : x ∈ (scanPartsF f ' ' r).tail := by
              rw [hps2]
              simpa using hx2
            exact ihtails x this
        · cases hparts : scanPartsF f ' ' r with
          | nil =>
            rw [hparts] at ihlast
            exact absurd ihlast.symm (by simp)
          | cons y ys =>
            show AllButLast EndsEnd (p :: y :: ys)
            rw [hparts] at ihabl
            exact ⟨hEnds, ihabl⟩

/-!
Lemmas about `sentMerge` and `split_paragraph_into_sentences`.
-/

theorem endsSentence_of {s : Str} (h : EndsEnd s) : endsSentence s = true := by
  obtain ⟨e, he, hee⟩ := h
  unfold endsSentence
  rw [← List.head?_reverse] at he
  cases hs : s.reverse with
  | nil => rw [hs] at he; simp at he
  | cons a tl =>
    rw [hs] at he
    simp at he
    subst he
    simp [hee]

theorem sentMerge_nil_ne {out : List Str} {buf : Str} (h : buf ≠ []) :
    sentMerge out buf [] = out.reverse ++ [buf] := by
  simp only [sentMerge]
  rw [if_neg h, List.reverse_cons]

theorem sentMerge_step {out : List Str} {buf part : Str} {rest : List Str}
    (h1 : pyStrip part = part) (h2 : part ≠ []) (h3 : buf ≠ [])
    (h4 : endsSentence buf = true) :
    sentMerge out buf (part :: rest) = sentMerge (buf :: out) part rest := by
  simp only [sentMerge]
  rw [h1, if_neg h2, if_neg h3, if_pos h4]

theorem sentMerge_start {out : List Str} {part : Str} {rest : List Str}
    (h1 : pyStrip part = part) (h2 : part ≠ []) :
    sentMerge out [] (part :: rest) = sentMerge out part rest := by
  simp only [sentMerge]
  rw [h1, if_neg h2]
  simp

theorem sentMerge_keep :
    ∀ (parts : List Str) (out : List Str) (buf : Str), buf ≠ [] →
      (∀ p ∈ parts, p ≠ [] ∧ pyStrip p = p) →
      AllButLast EndsEnd (buf :: parts) →
      sentMerge out buf parts = out.reverse ++ buf :: parts := by
  intro parts
  induction parts with
  | nil =>
    intro out buf hbuf _ _
    rw [sentMerge_nil_ne hbuf]
  | cons p rest ih =>
    intro out buf hbuf hall habl
    have hp := hall p (by simp)
    have hES : endsSentence buf = true := by
      have : EndsEnd buf := habl.1
      exact endsSentence_of this
    rw [sentMerge_step hp.2 hp.1 hbuf hES,
      ih (buf :: out) p hp.1 (fun x hx => hall x (List.mem_cons_of_mem p hx)) habl.2,
      List.reverse_cons, List.append_assoc]
    rfl

theorem sentMerge_id {parts : List Str}
    (hall : ∀ p ∈ parts, p ≠ [] ∧ pyStrip p = p)
    (habl : AllButLast EndsEnd parts) :
    sentMerge [] [] parts = parts := by
  cases parts with
  | nil => rfl
  | cons p rest =>
    have hp := hall p (by simp)
    rw [sentMerge_start hp.2 hp.1,
      sentMerge_keep rest [] p hp.1
        (fun x hx => hall x (List.mem_cons_of_mem p hx)) habl]
    rfl

theorem split_of_tmp_nil {t : Str} (h : collapseNl (pyStrip t) = []) :
    split_paragraph_into_sentences t = [] := by
  unfold split_paragraph_into_sentences
  rw [h]
  rfl

theorem split_of_tmp_ne {t : Str} (h : collapseNl (pyStrip t) ≠ []) :
    split_paragraph_into_sentences t = scanParts (collapseNl (pyStrip t)) ∧
      split_paragraph_into_sentences t ≠ [] := by
  set tmp := collapseNl (pyStrip t) with htmp
  have hstr : Stripped tmp := collapseNl_stripped (pyStrip_stripped t)
  obtain ⟨hall, htails, habl, pl, ps, hlast, hpll⟩ :=
    scanPartsF_props (tmp.length + 1) tmp (by omega) h hstr
  have hid : sentMerge [] [] (scanParts tmp) = scanParts tmp := by
    apply sentMerge_id
    · intro p hp
      obtain ⟨h1, _, h3, _⟩ := hall p hp
      exact ⟨h1, pyStrip_eq_self h3⟩
    · exact habl
  constructor
  · unfold split_paragraph_into_sentences
    rw [← htmp]
    exact hid
  · unfold split_paragraph_into_sentences
    rw [← htmp, hid]
    show scanPartsF (tmp.length + 1) ' ' tmp ≠ []
    rw [hlast]
    simp

theorem split_props (t : Str) :
    (∀ s ∈ split_paragraph_into_sentences t, GoodSent s) ∧
      AllButLast EndsEnd (split_paragraph_into_sentences t) ∧
      TailsLA (split_paragraph_into_sentences t) := by
  by_cases h : collapseNl (pyStrip t) = []
  · rw [split_of_tmp_nil h]
    exact ⟨by simp, trivial, by intro x hx; simp at hx⟩
  · obtain ⟨heq, _⟩ := split_of_tmp_ne h
    set tmp := collapseNl (pyStrip t) with htmp
    have hstr : Stripped tmp := collapseNl_stripped (pyStrip_stripped t)
    obtain ⟨hall, htails, habl, pl, ps, hlast, hpll⟩ :=
      scanPartsF_props (tmp.length + 1) tmp (by omega) h hstr
    rw [heq]
    refine ⟨?_, habl, htails⟩
    intro s hs
    obtain ⟨h1, h2, h3, h4⟩ := hall s hs
    refine ⟨h1, h3, ?_, h4⟩
    intro hnl
    exact collapseNl_no_nl (pyStrip t) (h2 '\n' hnl)

/-!
The key re-splitting property: splitting the space-join of a non-empty run
of splitter output sentences recovers exactly those sentences.  This is what
makes the hard-cap enforcer idempotent.
-/

theorem scanParts_join :
    ∀ g : List Str, g ≠ [] → (∀ s ∈ g, GoodSent s) →
      AllButLast EndsEnd g → TailsLA g →
      scanParts (joinSp g) = g := by
  intro g
  induction g with
  | nil => intro hg; exact absurd rfl hg
  | cons x t ih =>
    intro _ hgood habl htla
    cases t with
    | nil =>
      rw [joinSp_single]
      unfold scanParts
      rw [spf_succ_none (takePart_none_thru (hgood x (by simp)).2.2.2)]
    | cons y rest =>
      have hyg : GoodSent y := hgood y (by simp)
      have hxg : GoodSent x := hgood x (by simp)
      set J := joinSp (y :: rest) with hJ
      have hJne : J ≠ [] :=
        joinSp_ne_nil (by simp) (fun s hs => (hgood s (List.mem_cons_of_mem x hs)).1)
      obtain ⟨d, hyd, hdla⟩ : StartsLA y := htla y (by simp)
      have hJhead : J.head? = some d := by
        rw [hJ, joinSp_head? hyg.1, hyd]
      obtain ⟨J', hJ'⟩ : ∃ J', J = d :: J' := by
        cases hc : J with
        | nil => rw [hc] at hJhead; simp at hJhead
        | cons a as =>
          rw [hc] at hJhead
          simp at hJhead
          exact ⟨as, by rw [hJhead]⟩
      have htm : tryMatch (' ' :: J) = some J := by
        rw [tryMatch_cons, if_neg (by decide), tmCore_cons,
          if_pos (by decide), List.dropWhile_cons, if_pos (by decide),
          dropWhile_eq_self_of_head (by
            intro c hc
            rw [hJ'] at hc
            simp at hc
            rw [← hc]
            exact isLA_not_ws hdla), hJ', tmLook_cons, if_pos hdla]
      have hEx : EndsEnd x := habl.1
      obtain ⟨e, hxe, hxee⟩ := hEx
      have hnfx : nfThru ' ' x (' ' :: J) = true := by
        rw [nfThru_irrel hxe hxee]
        exact hxg.2.2.2
      have hend : isEnd (x.getLast?.getD ' ') = true := by
        rw [hxe]
        simpa using hxee
      have htp : takePart ' ' (x ++ ' ' :: J) = (x, some J) :=
        takePart_thru hnfx hend htm
      have hjoin : joinSp (x :: y :: rest) = x ++ ' ' :: J := by
        rw [joinSp_cons_cons, hJ]
      rw [hjoin]
      unfold scanParts
      have hlen : (x ++ ' ' :: J).length = x.length + 1 + J.length := by
        simp
        omega
      rw [spf_succ_some htp]
      have hJlen : J.length < x.length + 1 + J.length := by
        omega
      rw [spf_inv _ (J.length + 1) ' ' J (by omega) (by omega)]
      have := ih (by simp) (fun s hs => hgood s (List.mem_cons_of_mem x hs))
        habl.2 (by
          intro p hp
          exact htla p (by simpa using List.mem_cons_of_mem y hp))
      unfold scanParts at this
      rw [hJ] at this ⊢
      rw [this]

theorem split_join {g : List Str} (hg : g ≠ [])
    (hgood : ∀ s ∈ g, GoodSent s) (habl : AllButLast EndsEnd g)
    (htla : TailsLA g) :
    pyStrip (joinSp g) = joinSp g ∧
      split_paragraph_into_sentences (joinSp g) = g := by
  have hstr : Stripped (joinSp g) :=
    joinSp_stripped hg (fun s hs => ⟨(hgood s hs).1, (hgood s hs).2.1⟩)
  have hid : pyStrip (joinSp g) = joinSp g := pyStrip_eq_self hstr
  refine ⟨hid, ?_⟩
  have hnl : '\n' ∉ joinSp g := joinSp_no_nl (fun s hs => (hgood s hs).2.2.1)
  have htmp : collapseNl (pyStrip (joinSp g)) = joinSp g := by
    rw [hid, collapseNl_of_no_nl hnl]
  unfold split_paragraph_into_sentences
  rw [htmp, scanParts_join g hg hgood habl htla]
  exact sentMerge_id
    (fun p hp => ⟨(hgood p hp).1, pyStrip_eq_self (hgood p hp).2.1⟩) habl

/-!
Lemmas about `AllButLast` and `TailsLA` restricted to contiguous slices.
-/

theorem AllButLast_nil (P : Str → Prop) : AllButLast P [] := trivial

theorem AllButLast_single (P : Str → Prop) (x : Str) : AllButLast P [x] := trivial

theorem AllButLast_cons_cons {P : Str → Prop} {x y : Str} {r : List Str} :
    AllButLast P (x :: y :: r) ↔ P x ∧ AllButLast P (y :: r) := Iff.rfl

theorem AllButLast_of_forall {P : Str → Prop} :
    ∀ {l : List Str}, (∀ x ∈ l, P x) → AllButLast P l := by
  intro l
  induction l with
  | nil => intro _; trivial
  | cons x t ih =>
    intro h
    cases t with
    | nil => trivial
    | cons y r =>
      exact ⟨h x (by simp), ih (fun z hz => h z (List.mem_cons_of_mem x hz))⟩

theorem AllButLast_append_left {P : Str → Prop} :
    ∀ {xs : List Str} {y : Str} {ys : List Str},
      AllButLast P (xs ++ y :: ys) → ∀ x ∈ xs, P x := by
  intro xs
  induction xs with
  | nil => intro y ys _ x hx; simp at hx
  | cons a xs' ih =>
    intro y ys h x hx
    have hshape : AllButLast P (a :: (xs' ++ y :: ys)) := h
    cases hxy : xs' ++ y :: ys with
    | nil => exact absurd hxy (by simp)
    | cons b bs =>
      rw [hxy] at hshape
      rcases List.mem_cons.mp hx with rfl | hx2
      · exact hshape.1
      · exact ih (by rw [hxy]; exact hshape.2) x hx2

theorem AllButLast_append_right {P : Str → Prop} :
    ∀ {xs ys : List Str}, AllButLast P (xs ++ ys) → AllButLast P ys := by
  intro xs
  induction xs with
  | nil => intro ys h; exact h
  | cons a xs' ih =>
    intro ys h
    have hshape : AllButLast P (a :: (xs' ++ ys)) := h
    cases hxy : xs' ++ ys with
    | nil =>
      have : ys = [] := (List.append_eq_nil.mp hxy).2
      rw [this]
      trivial
    | cons b bs =>
      rw [hxy] at hshape
      exact ih (by rw [hxy]; exact hshape.2)

theorem AllButLast_slice {P : Str → Prop} {pre post : List (List Str)}
    {g : List Str} (h : AllButLast P (pre.flatten ++ g ++ post.flatten)) :
    AllButLast P g := by
  have h1 : AllButLast P (g ++ post.flatten) := by
    rw [List.append_assoc] at h
    exact AllButLast_append_right h
  cases hp : post.flatten with
  | nil => rw [hp, List.append_nil] at h1; exact h1
  | cons q qs =>
    rw [hp] at h1
    exact AllButLast_of_forall (AllButLast_append_left h1)

theorem mem_tail_append {x : Str} :
    ∀ {pre : List Str} {g post : List Str}, x ∈ g.tail →
      x ∈ (pre ++ g ++ post).tail := by
  intro pre
  induction pre with
  | nil =>
    intro g post hx
    cases g with
    | nil => simp at hx
    | cons c g' =>
      rw [List.nil_append, List.cons_append, List.tail_cons]
      rw [List.tail_cons] at hx
      exact List.mem_append_left post hx
  | cons a pre' ih =>
    intro g post hx
    rw [List.cons_append, List.cons_append, List.tail_cons]
    cases g with
    | nil => simp at hx
    | cons c g' =>
      rw [List.tail_cons] at hx
      simp [hx]

theorem TailsLA_slice {ls : List Str} {pre g post : List Str}
    (h : TailsLA ls) (heq : ls = pre ++ g ++ post) : TailsLA g := by
  intro x hx
  exact h x (by rw [heq]; exact mem_tail_append hx)

/-!
Lemmas about `extendCount` and `packGroupsF`.
-/

theorem extendCount_nil (bound : Int) (cur : Nat) : extendCount bound cur [] = 0 := rfl

theorem extendCount_cons (bound : Int) (cur t : Nat) (ts : List Nat) :
    extendCount bound cur (t :: ts) =
      if (cur : Int) + t ≤ bound then 1 + extendCount bound (cur + t) ts else 0 := rfl

theorem extendCount_le :
    ∀ {ts : List Nat} {bound : Int} {cur : Nat}, extendCount bound cur ts ≤ ts.length := by
  intro ts
  induction ts with
  | nil => intro bound cur; simp [extendCount_nil]
  | cons t ts' ih =>
    intro bound cur
    rw [extendCount_cons]
    by_cases h : (cur : Int) + t ≤ bound
    · rw [if_pos h]
      have := @ih bound (cur + t)
      simp
      omega
    · rw [if_neg h]
      simp

theorem extendCount_take :
    ∀ {ts : List Nat} {bound : Int} {cur n : Nat}, extendCount bound cur ts = n →
      extendCount bound cur (ts.take n) = n := by
  intro ts
  induction ts with
  | nil => intro bound cur n h; simpa using h
  | cons t ts' ih =>
    intro bound cur n h
    rw [extendCount_cons] at h
    by_cases hb : (cur : Int) + t ≤ bound
    · rw [if_pos hb] at h
      cases n with
      | zero => omega
      | succ m =>
        have hm : extendCount bound (cur + t) ts' = m := by omega
        rw [List.take_succ_cons, extendCount_cons, if_pos hb, ih hm]
        omega
    · rw [if_neg hb] at h
      subst h
      rfl

theorem extendCount_sum :
    ∀ {ts : List Nat} {bound : Int} {cur n : Nat}, extendCount bound cur ts = n →
      n ≠ 0 → (cur : Int) + ((ts.take n).sum : Nat) ≤ bound := by
  intro ts
  induction ts with
  | nil =>
    intro bound cur n h hn
    rw [extendCount_nil] at h
    omega
  | cons t ts' ih =>
    intro bound cur n h hn
    rw [extendCount_cons] at h
    by_cases hb : (cur : Int) + t ≤ bound
    · rw [if_pos hb] at h
      cases n with
      | zero => omega
      | succ m =>
        have hm : extendCount bound (cur + t) ts' = m := by omega
        rw [List.take_succ_cons]
        by_cases hm0 : m = 0
        · subst hm0
          simpa using hb
        · have := ih hm hm0
          rw [List.sum_cons]
          push_cast at this ⊢
          omega
    · rw [if_neg hb] at h
      omega

theorem pgf_zero (tok : Str → Nat) (cap : Int) (ss : List Str) :
    packGroupsF tok cap 0 ss = [] := rfl

theorem pgf_succ_nil (tok : Str → Nat) (cap : Int) (f : Nat) :
    packGroupsF tok cap (f + 1) [] = [] := rfl

theorem pgf_succ_cons (tok : Str → Nat) (cap : Int) (f : Nat) (s : Str) (ss : List Str) :
    packGroupsF tok cap (f + 1) (s :: ss) =
      (s :: ss.take (extendCount cap (tok s) (ss.map tok))) ::
        packGroupsF tok cap f (ss.drop (extendCount cap (tok s) (ss.map tok))) := rfl

theorem pgf_inv (tok : Str → Nat) (cap : Int) :
    ∀ (f1 f2 : Nat) (ss : List Str), ss.length < f1 → ss.length < f2 →
      packGroupsF tok cap f1 ss = packGroupsF tok cap f2 ss := by
  intro f1
  induction f1 with
  | zero => intro f2 ss h; omega
  | succ f ih =>
    intro f2 ss h1 h2
    cases f2 with
    | zero => omega
    | succ g =>
      cases ss with
      | nil => rw [pgf_succ_nil, pgf_succ_nil]
      | cons s ss' =>
        rw [pgf_succ_cons, pgf_succ_cons]
        have hd : (ss'.drop (extendCount cap (tok s) (ss'.map tok))).length ≤ ss'.length := by
          simp
        simp at h1 h2
        rw [ih g (ss'.drop (extendCount cap (tok s) (ss'.map tok)))
          (by omega) (by omega)]

theorem packGroups_flatten (tok : Str → Nat) (cap : Int) :
    ∀ (f : Nat) (ss : List Str), ss.length < f →
      (packGroupsF tok cap f ss).flatten = ss := by
  intro f
  induction f with
  | zero => intro ss h; omega
  | succ f ih =>
    intro ss h
    cases ss with
    | nil => rw [pgf_succ_nil]; rfl
    | cons s ss' =>
      rw [pgf_succ_cons, List.flatten_cons]
      have hd : (ss'.drop (extendCount cap (tok s) (ss'.map tok))).length ≤ ss'.length := by
        simp
      simp at h
      rw [ih _ (by omega), List.cons_append, List.take_append_drop]

theorem packGroups_props (tok : Str → Nat) (cap : Int) :
    ∀ (f : Nat) (ss : List Str), ss.length < f →
      ∀ g ∈ packGroupsF tok cap f ss,
        g ≠ [] ∧ packGroups tok cap g = [g] ∧
          (((g.map tok).sum : Int) ≤ cap ∨ g.length = 1) := by
  intro f
  induction f with
  | zero => intro ss h; omega
  | succ f ih =>
    intro ss h g hg
    cases ss with
    | nil => rw [pgf_succ_nil] at hg; simp at hg
    | cons s ss' =>
      rw [pgf_succ_cons] at hg
      simp at h
      rcases List.mem_cons.mp hg with rfl | hg2
      · set e := extendCount cap (tok s) (ss'.map tok) with he
        have hregroup : packGroups tok cap (s :: ss'.take e) = [s :: ss'.take e] := by
          unfold packGroups
          have hlen : (s :: ss'.take e).length = (ss'.take e).length + 1 := by simp
          rw [hlen]
          rw [pgf_succ_cons]
          have hmt : (ss'.take e).map tok = (ss'.map tok).take e := by
            rw [List.map_take]
          have hee : extendCount cap (tok s) ((ss'.take e).map tok) = e := by
            rw [hmt]
            exact extendCount_take he.symm
          rw [hee]
          have ht1 : (ss'.take e).take e = ss'.take e := by
            rw [List.take_take]
            simp
          have ht2 : (ss'.take e).drop e = [] := by
            apply List.drop_eq_nil_of_le
            simp
          rw [ht1, ht2]
          rfl
        refine ⟨by simp, hregroup, ?_⟩
        by_cases he0 : e = 0
        · right
          rw [he0]
          simp
        · left
          have hsum := @extendCount_sum (ss'.map tok) cap (tok s) e
            he.symm he0
          have hmt : (ss'.take e).map tok = (ss'.map tok).take e := by
            rw [List.map_take]
          rw [List.map_cons, List.sum_cons, hmt]
          push_cast at hsum ⊢
          omega
      · have hd : (ss'.drop (extendCount cap (tok s) (ss'.map tok))).length ≤ ss'.length := by
          simp
        exact ih (ss'.drop (extendCount cap (tok s) (ss'.map tok))) (by omega) g hg2

/-!
Lemmas about `buildPieces`, `capPieces`, `capExpand` and `renumberFrom`.
-/

theorem buildPieces_nil (tok : Str → Nat) (title : Option Str) (g0 a : Nat) :
    buildPieces tok title g0 a [] = [] := rfl

theorem buildPieces_cons (tok : Str → Nat) (title : Option Str) (g0 a : Nat)
    (g : List Str) (gs : List (List Str)) :
    buildPieces tok title g0 a (g :: gs) =
      { chunk_id := 0, text := pyStrip (joinSp g),
        token_count := tok (pyStrip (joinSp g)),
        start_sentence := g0 + a, end_sentence := g0 + (a + (g.length - 1)),
        title := title } :: buildPieces tok title g0 (a + g.length) gs := rfl

theorem buildPieces_forall {tok : Str → Nat} {title : Option Str} {g0 : Nat} :
    ∀ {groups : List (List Str)} {a : Nat} {p : Chunk},
      p ∈ buildPieces tok title g0 a groups →
      p.title = title ∧ p.chunk_id = 0 ∧
        p.start_sentence ≤ p.end_sentence ∧
        ∃ g ∈ groups, p.text = pyStrip (joinSp g) ∧
          p.token_count = tok p.text ∧
          p.end_sentence = p.start_sentence + (g.length - 1) := by
  intro groups
  induction groups with
  | nil => intro a p hp; rw [buildPieces_nil] at hp; simp at hp
  | cons g gs ih =>
    intro a p hp
    rw [buildPieces_cons] at hp
    rcases List.mem_cons.mp hp with rfl | hp2
    · refine ⟨rfl, rfl, by simp only []; omega, g, by simp, rfl, rfl, by simp only []; omega⟩
    · obtain ⟨h1, h2, h3, g2, hg2, h4, h5, h6⟩ := ih hp2
      exact ⟨h1, h2, h3, g2, List.mem_cons_of_mem g hg2, h4, h5, h6⟩

theorem buildPieces_mem_decomp {tok : Str → Nat} {title : Option Str} {g0 : Nat} :
    ∀ {groups : List (List Str)} {a : Nat} {p : Chunk},
      p ∈ buildPieces tok title g0 a groups →
      ∃ pre g post, groups = pre ++ g :: post ∧ p.text = pyStrip (joinSp g) ∧
        p.token_count = tok p.text ∧ p.title = title ∧
        p.end_sentence = p.start_sentence + (g.length - 1) := by
  intro groups
  induction groups with
  | nil => intro a p hp; rw [buildPieces_nil] at hp; simp at hp
  | cons g gs ih =>
    intro a p hp
    rw [buildPieces_cons] at hp
    rcases List.mem_cons.mp hp with rfl | hp2
    · exact ⟨[], g, gs, rfl, rfl, rfl, rfl, by simp; omega⟩
    · obtain ⟨pre, g2, post, h1, h2, h3, h4, h5⟩ := ih hp2
      exact ⟨g :: pre, g2, post, by rw [h1]; rfl, h2, h3, h4, h5⟩

theorem buildPieces_ne_nil {tok : Str → Nat} {title : Option Str} {g0 a : Nat}
    {groups : List (List Str)} (h : groups ≠ []) :
    buildPieces tok title g0 a groups ≠ [] := by
  cases groups with
  | nil => exact absurd rfl h
  | cons g gs => rw [buildPieces_cons]; simp

theorem capPieces_pass {tok : Str → Nat} {cap : Int} {c : Chunk}
    (h : (c.token_count : Int) ≤ cap) : capPieces tok cap c = [c] := by
  unfold capPieces
  rw [if_pos h]

theorem capPieces_over {tok : Str → Nat} {cap : Int} {c : Chunk}
    (h : ¬ (c.token_count : Int) ≤ cap) :
    capPieces tok cap c = buildPieces tok c.title c.start_sentence 0
      (packGroups tok cap (split_paragraph_into_sentences c.text)) := by
  unfold capPieces
  rw [if_neg h]

theorem capPieces_title {tok : Str → Nat} {cap : Int} {c : Chunk} :
    ∀ p ∈ capPieces tok cap c, p.title = c.title := by
  intro p hp
  by_cases h : (c.token_count : Int) ≤ cap
  · rw [capPieces_pass h] at hp
    simp at hp
    rw [hp]
  · rw [capPieces_over h] at hp
    exact (buildPieces_forall hp).1

theorem capPieces_start_le {tok : Str → Nat} {cap : Int} {c : Chunk}
    (hc : c.start_sentence ≤ c.end_sentence) :
    ∀ p ∈ capPieces tok cap c, p.start_sentence ≤ p.end_sentence := by
  intro p hp
  by_cases h : (c.token_count : Int) ≤ cap
  · rw [capPieces_pass h] at hp
    simp at hp
    rw [hp]
    exact hc
  · rw [capPieces_over h] at hp
    exact (buildPieces_forall hp).2.2.1

theorem capExpand_nil (tok : Str → Nat) (cap : Int) :
    capExpand tok cap [] = [] := rfl

theorem capExpand_cons (tok : Str → Nat) (cap : Int) (c : Chunk) (cs : List Chunk) :
    capExpand tok cap (c :: cs) = capPieces tok cap c ++ capExpand tok cap cs := rfl

theorem capExpand_mem {tok : Str → Nat} {cap : Int} :
    ∀ {cs : List Chunk} {p : Chunk}, p ∈ capExpand tok cap cs →
      ∃ c ∈ cs, p ∈ capPieces tok cap c := by
  intro cs
  induction cs with
  | nil => intro p hp; rw [capExpand_nil] at hp; simp at hp
  | cons c rest ih =>
    intro p hp
    rw [capExpand_cons] at hp
    rcases List.mem_append.mp hp with h | h
    · exact ⟨c, by simp, h⟩
    · obtain ⟨c2, hc2, hp2⟩ := ih h
      exact ⟨c2, List.mem_cons_of_mem c hc2, hp2⟩

theorem renumberFrom_nil (k : Nat) : renumberFrom k [] = [] := rfl

theorem renumberFrom_cons (k : Nat) (c : Chunk) (cs : List Chunk) :
    renumberFrom k (c :: cs) =
      { c with chunk_id := k } :: renumberFrom (k + 1) cs := rfl

theorem renumberFrom_length : ∀ (cs : List Chunk) (k : Nat),
    (renumberFrom k cs).length = cs.length := by
  intro cs
  induction cs with
  | nil => intro k; rfl
  | cons c rest ih =>
    intro k
    rw [renumberFrom_cons]
    simp [ih]

theorem renumberFrom_mem : ∀ {cs : List Chunk} {k : Nat} {p : Chunk},
    p ∈ renumberFrom k cs → ∃ c ∈ cs, eqUpToId p c := by
  intro cs
  induction cs with
  | nil => intro k p hp; rw [renumberFrom_nil] at hp; simp at hp
  | cons c rest ih =>
    intro k p hp
    rw [renumberFrom_cons] at hp
    rcases List.mem_cons.mp hp with rfl | hp2
    · exact ⟨c, by simp, rfl, rfl, rfl, rfl, rfl⟩
    · obtain ⟨c2, hc2, he⟩ := ih hp2
      exact ⟨c2, List.mem_cons_of_mem c hc2, he⟩

theorem setId_congr {c d : Chunk} (h : eqUpToId c d) (k : Nat) :
    ({ c with chunk_id := k } : Chunk) = { d with chunk_id := k } := by
  cases c
  cases d
  obtain ⟨h1, h2, h3, h4, h5⟩ := h
  simp at h1 h2 h3 h4 h5
  simp [h1, h2, h3, h4, h5]

theorem renumberFrom_idem : ∀ (cs : List Chunk) (k : Nat),
    renumberFrom k (renumberFrom k cs) = renumberFrom k cs := by
  intro cs
  induction cs with
  | nil => intro k; rfl
  | cons c rest ih =>
    intro k
    rw [renumberFrom_cons, renumberFrom_cons, ih]

/-!
Provenance of the sub-chunks produced when `enforce_hard_cap` splits an
oversized chunk: each comes from one greedy group `g` of the re-split of the
chunk's own text, and that group is a contiguous run of splitter sentences,
so it inherits all splitter-output structure.
-/

theorem capPieces_split {tok : Str → Nat} {cap : Int} {c : Chunk}
    (h : ¬ (c.token_count : Int) ≤ cap) {p : Chunk} (hp : p ∈ capPieces tok cap c) :
    ∃ g : List Str, g ≠ [] ∧ (∀ s ∈ g, GoodSent s) ∧ AllButLast EndsEnd g ∧
      TailsLA g ∧ (((g.map tok).sum : Int) ≤ cap ∨ g.length = 1) ∧
      packGroups tok cap g = [g] ∧
      p.text = pyStrip (joinSp g) ∧ p.token_count = tok p.text ∧
      p.end_sentence = p.start_sentence + (g.length - 1) ∧ p.title = c.title := by
  rw [capPieces_over h] at hp
  obtain ⟨pre, g, post, hdecomp, ht, htc, hti, hend⟩ := buildPieces_mem_decomp hp
  set ls := split_paragraph_into_sentences c.text with hls
  have hmemg : g ∈ packGroupsF tok cap (ls.length + 1) ls := by
    have : g ∈ packGroups tok cap ls := by
      rw [hdecomp]
      simp
    exact this
  obtain ⟨hgne, hregroup, hbound⟩ :=
    packGroups_props tok cap (ls.length + 1) ls (by omega) g hmemg
  have hflat : ls = pre.flatten ++ g ++ post.flatten := by
    have h1 : (packGroups tok cap ls).flatten = ls :=
      packGroups_flatten tok cap (ls.length + 1) ls (by omega)
    rw [hdecomp] at h1
    rw [← h1, List.flatten_append, List.flatten_cons, ← List.append_assoc]
  obtain ⟨hgood, habl, htla⟩ := split_props c.text
  rw [← hls] at hgood habl htla
  refine ⟨g, hgne, ?_, ?_, ?_, hbound, hregroup, ht, htc, hend, hti⟩
  · intro s hs
    apply hgood
    rw [hflat]
    simp [hs]
  · exact AllButLast_slice (by rw [← hflat]; exact habl)
  · exact TailsLA_slice htla hflat

/-!
Lemmas about `packLoop` and `pack_sentences_into_chunks`.
-/

theorem packLoop_zero (tok : Str → Nat) (mt ov : Int) (sentences : List Str)
    (toks : List Nat) (i cid : Nat) (acc : List Chunk) :
    packLoop tok mt ov sentences toks 0 i cid acc =
      if i < sentences.length then none else some acc.reverse := rfl

theorem packLoop_succ (tok : Str → Nat) (mt ov : Int) (sentences : List Str)
    (toks : List Nat) (fuel i cid : Nat) (acc : List Chunk) :
    packLoop tok mt ov sentences toks (fuel + 1) i cid acc =
      if i < sentences.length then
        match toks.drop i with
        | [] => none
        | t :: ts =>
          if sentences.length ≤ i + takeCount mt t ts || ov = 0 then
            packLoop tok mt ov sentences toks fuel (i + takeCount mt t ts)
              (cid + 1) (packChunk tok sentences i cid (takeCount mt t ts) :: acc)
          else
            packLoop tok mt ov sentences toks fuel
              (i + (takeCount mt t ts -
                overlapWalk ov 0 (((toks.drop i).take (takeCount mt t ts)).reverse)))
              (cid + 1) (packChunk tok sentences i cid (takeCount mt t ts) :: acc)
      else some acc.reverse := rfl

theorem packLoop_succ_stop {tok : Str → Nat} {mt ov : Int} {sentences : List Str}
    {toks : List Nat} {fuel i cid : Nat} {acc : List Chunk}
    (hi : ¬ i < sentences.length) :
    packLoop tok mt ov sentences toks (fuel + 1) i cid acc = some acc.reverse := by
  rw [packLoop_succ, if_neg hi]

theorem packLoop_succ_out {tok : Str → Nat} {mt ov : Int} {sentences : List Str}
    {toks : List Nat} {fuel i cid : Nat} {acc : List Chunk}
    (hi : i < sentences.length) (hd : toks.drop i = []) :
    packLoop tok mt ov sentences toks (fuel + 1) i cid acc = none := by
  rw [packLoop_succ, if_pos hi, hd]

theorem packLoop_succ_cons {tok : Str → Nat} {mt ov : Int} {sentences : List Str}
    {toks : List Nat} {fuel i cid : Nat} {acc : List Chunk} {t : Nat} {ts : List Nat}
    (hi : i < sentences.length) (hd : toks.drop i = t :: ts) :
    packLoop tok mt ov sentences toks (fuel + 1) i cid acc =
      if sentences.length ≤ i + takeCount mt t ts || ov = 0 then
        packLoop tok mt ov sentences toks fuel (i + takeCount mt t ts)
          (cid + 1) (packChunk tok sentences i cid (takeCount mt t ts) :: acc)
      else
        packLoop tok mt ov sentences toks fuel
          (i + (takeCount mt t ts -
            overlapWalk ov 0 (((t :: ts).take (takeCount mt t ts)).reverse)))
          (cid + 1) (packChunk tok sentences i cid (takeCount mt t ts) :: acc) := by
  rw [packLoop_succ, if_pos hi, hd]

theorem packLoop_invariant {tok : Str → Nat} {mt ov : Int}
    {sentences : List Str} {toks : List Nat} (P : Chunk → Prop)
    (hP : ∀ i cid k, 1 ≤ k → i < sentences.length →
      P (packChunk tok sentences i cid k)) :
    ∀ (fuel i cid : Nat) (acc : List Chunk) (out : List Chunk),
      (∀ c ∈ acc, P c) →
      packLoop tok mt ov sentences toks fuel i cid acc = some out →
      ∀ c ∈ out, P c := by
  intro fuel
  induction fuel with
  | zero =>
    intro i cid acc out hacc hout
    rw [packLoop_zero] at hout
    by_cases hi : i < sentences.length
    · rw [if_pos hi] at hout
      simp at hout
    · rw [if_neg hi] at hout
      simp at hout
      subst hout
      intro c hc
      exact hacc c (List.mem_reverse.mp hc)
  | succ fuel ih =>
    intro i cid acc out hacc hout
    by_cases hi : i < sentences.length
    · cases hd : toks.drop i with
      | nil => rw [packLoop_succ_out hi hd] at hout; simp at hout
      | cons t ts =>
        rw [packLoop_succ_cons hi hd] at hout
        have hnew : ∀ c ∈ packChunk tok sentences i cid (takeCount mt t ts) :: acc, P c := by
          intro c hc
          rcases List.mem_cons.mp hc with rfl | hc2
          · exact hP i cid _ (by unfold takeCount; omega) hi
          · exact hacc c hc2
        by_cases hcond : sentences.length ≤ i + takeCount mt t ts || ov = 0
        · rw [if_pos hcond] at hout
          exact ih _ _ _ out hnew hout
        · rw [if_neg hcond] at hout
          exact ih _ _ _ out hnew hout
    · rw [packLoop_succ_stop hi] at hout
      simp at hout
      subst hout
      intro c hc
      exact hacc c (List.mem_reverse.mp hc)

theorem packLoop_length {tok : Str → Nat} {mt ov : Int}
    {sentences : List Str} {toks : List Nat} :
    ∀ (fuel i cid : Nat) (acc : List Chunk) (out : List Chunk),
      packLoop tok mt ov sentences toks fuel i cid acc = some out →
      acc.length ≤ out.length := by
  intro fuel
  induction fuel with
  | zero =>
    intro i cid acc out hout
    rw [packLoop_zero] at hout
    by_cases hi : i < sentences.length
    · rw [if_pos hi] at hout
      simp at hout
    · rw [if_neg hi] at hout
      simp at hout
      subst hout
      simp
  | succ fuel ih =>
    intro i cid acc out hout
    by_cases hi : i < sentences.length
    · cases hd : toks.drop i with
      | nil => rw [packLoop_succ_out hi hd] at hout; simp at hout
      | cons t ts =>
        rw [packLoop_succ_cons hi hd] at hout
        by_cases hcond : sentences.length ≤ i + takeCount mt t ts || ov = 0
        · rw [if_pos hcond] at hout
          have := ih _ _ _ out hout
          simp at this
          omega
        · rw [if_neg hcond] at hout
          have := ih _ _ _ out hout
          simp at this
          omega
    · rw [packLoop_succ_stop hi] at hout
      simp at hout
      subst hout
      simp

/-!
Idempotence machinery for `enforce_hard_cap`.
-/

theorem eqUpToId_refl (c : Chunk) : eqUpToId c c := ⟨rfl, rfl, rfl, rfl, rfl⟩

theorem enforce_singleton {tok : Str → Nat} {cs : List Chunk} {cap : Int} :
    ∀ c ∈ enforce_hard_cap tok cs cap,
      ∃ d, capPieces tok cap c = [d] ∧ eqUpToId d c := by
  intro c hc
  obtain ⟨p, hpmem, hcp⟩ := renumberFrom_mem hc
  obtain ⟨c0, hc0, hp0⟩ := capExpand_mem hpmem
  obtain ⟨e1, e2, e3, e4, e5⟩ := hcp
  by_cases hcap : (c.token_count : Int) ≤ cap
  · exact ⟨c, capPieces_pass hcap, eqUpToId_refl c⟩
  · by_cases h0 : (c0.token_count : Int) ≤ cap
    · exfalso
      rw [capPieces_pass h0] at hp0
      simp at hp0
      subst hp0
      rw [e2] at hcap
      exact hcap h0
    · obtain ⟨g, hgne, hgood, habl, htla, _, hregroup, ht, htc, hend, _⟩ :=
        capPieces_split h0 hp0
      obtain ⟨hstripid, hsplitg⟩ := split_join hgne hgood habl htla
      have hctext : c.text = pyStrip (joinSp g) := by rw [e1, ht]
      have hsplitc : split_paragraph_into_sentences c.text = g := by
        rw [hctext, hstripid, hsplitg]
      refine ⟨Chunk.mk 0 (pyStrip (joinSp g)) (tok (pyStrip (joinSp g)))
        (c.start_sentence + 0) (c.start_sentence + (0 + (g.length - 1)))
        c.title, ?_, ?_⟩
      · rw [capPieces_over hcap, hsplitc, hregroup, buildPieces_cons,
          buildPieces_nil]
      · refine ⟨by rw [hctext], ?_, by simp, ?_, rfl⟩
        · show tok (pyStrip (joinSp g)) = c.token_count
          rw [← ht, ← htc, e2]
        · show c.start_sentence + (0 + (g.length - 1)) = c.end_sentence
          rw [e4, hend, e3]
          omega

theorem renumberFrom_expand {tok : Str → Nat} {cap : Int} :
    ∀ (l : List Chunk) (k : Nat),
      (∀ c ∈ l, ∃ d, capPieces tok cap c = [d] ∧ eqUpToId d c) →
      renumberFrom k (capExpand tok cap l) = renumberFrom k l := by
  intro l
  induction l with
  | nil => intro k _; rfl
  | cons c rest ih =>
    intro k hall
    obtain ⟨d, hd, hde⟩ := hall c (by simp)
    rw [capExpand_cons, hd, List.cons_append, List.nil_append,
      renumberFrom_cons, renumberFrom_cons,
      ih (k + 1) (fun x hx => hall x (List.mem_cons_of_mem c hx)),
      setId_congr hde]

/-!
Tokenizer subadditivity over joins.
-/

theorem joinSp_subadd {tok : Str → Nat} (hs : SpaceSubadd tok) :
    ∀ {g : List Str}, g ≠ [] → tok (joinSp g) ≤ (g.map tok).sum := by
  intro g
  induction g with
  | nil => intro hg; exact absurd rfl hg
  | cons s t ih =>
    intro _
    cases t with
    | nil => simp [joinSp_single]
    | cons r u =>
      rw [joinSp_cons_cons, List.map_cons, List.sum_cons]
      calc tok (s ++ ' ' :: joinSp (r :: u))
          ≤ tok s + tok (joinSp (r :: u)) := hs s (joinSp (r :: u))
        _ ≤ tok s + ((r :: u).map tok).sum := by
            have := ih (by simp)
            omega

theorem nonSpaceTok_subadd : SpaceSubadd nonSpaceTok := by
  intro a b
  unfold nonSpaceTok
  rw [List.filter_append, List.filter_cons]
  simp

/-!
Properties of cleaned markdown text and of `split_into_paragraphs` on it.
-/

theorem mem_pyStrip {l : Str} {c : Char} (h : c ∈ pyStrip l) : c ∈ l := by
  unfold pyStrip at h
  rw [List.mem_reverse] at h
  have h1 := (@List.dropWhile_sublist _ ((l.dropWhile ws).reverse) ws).mem h
  rw [List.mem_reverse] at h1
  exact (@List.dropWhile_sublist _ l ws).mem h1

theorem collapseAllWs_ws_space :
    ∀ (l : Str) (b : Bool) {c : Char}, c ∈ collapseAllWs b l → ws c = true → c = ' ' := by
  intro l
  induction l with
  | nil => intro b c h; simp [collapseAllWs] at h
  | cons a as ih =>
    intro b c h hw
    unfold collapseAllWs at h
    by_cases ha : ws a = true
    · rw [if_pos ha] at h
      by_cases hb : b = true
      · rw [if_pos hb] at h
        exact ih true h hw
      · rw [if_neg hb] at h
        rcases List.mem_cons.mp h with rfl | h2
        · rfl
        · exact ih true h2 hw
    · rw [if_neg ha] at h
      rcases List.mem_cons.mp h with rfl | h2
      · rw [hw] at ha
        exact absurd rfl ha
      · exact ih false h2 hw

theorem md_to_text_good (b : Str) :
    Stripped (md_to_text b) ∧ '\n' ∉ md_to_text b ∧ '\r' ∉ md_to_text b := by
  unfold md_to_text
  by_cases hb : b = []
  · rw [if_pos hb]
    exact ⟨stripped_nil, by simp, by simp⟩
  · rw [if_neg hb]
    refine ⟨pyStrip_stripped _, ?_, ?_⟩
    · intro h
      have := collapseAllWs_ws_space _ false (mem_pyStrip h) (by decide)
      simp at this
    · intro h
      have := collapseAllWs_ws_space _ false (mem_pyStrip h) (by decide)
      simp at this

theorem replCRLF_id : ∀ {t : Str}, '\r' ∉ t → replCRLF t = t := by
  intro t
  induction t with
  | nil => intro _; rfl
  | cons c rest ih =>
    intro h
    have hc : ¬ c = '\r' := by
      intro hc
      exact h (hc ▸ List.mem_cons_self c rest)
    unfold replCRLF
    rw [if_neg hc, ih (fun hm => h (List.mem_cons_of_mem c hm))]

theorem runCut_none {run : Str} (h : '\n' ∉ run) : runCut run = none := by
  unfold runCut
  have : run.dropWhile (· ≠ '\n') = [] := by
    rw [List.dropWhile_eq_nil_iff]
    intro x hx
    simp
    intro hx2
    exact absurd (hx2 ▸ hx) h
  rw [this]

theorem paraSplitGo_no_nl :
    ∀ (l part run : Str), '\n' ∉ run → '\n' ∉ l →
      paraSplitGo part run l = [part ++ run ++ l] := by
  intro l
  induction l with
  | nil =>
    intro part run hrun _
    unfold paraSplitGo
    rw [runCut_none hrun]
    simp
  | cons c rest ih =>
    intro part run hrun hl
    have hc : c ≠ '\n' := fun h => hl (h ▸ List.mem_cons_self c rest)
    have hrest : '\n' ∉ rest := fun h => hl (List.mem_cons_of_mem c h)
    unfold paraSplitGo
    by_cases hw : ws c = true
    · rw [if_pos hw, ih part (run ++ [c]) (by
        intro hm
        rcases List.mem_append.mp hm with h1 | h2
        · exact hrun h1
        · simp at h2
          exact hc h2.symm) hrest]
      simp
    · rw [if_neg hw, runCut_none hrun, ih (part ++ run ++ [c]) [] (by simp) hrest]
      simp

theorem split_into_paragraphs_of_clean {t : Str} (hn : '\n' ∉ t) (hr : '\r' ∉ t) :
    split_into_paragraphs t = if pyStrip t = [] then [] else [pyStrip t] := by
  unfold split_into_paragraphs
  rw [replCRLF_id hr, paraSplitGo_no_nl t [] [] (by simp) hn]
  simp only [List.nil_append, List.map_cons, List.map_nil]
  by_cases h : pyStrip t = []
  · rw [if_pos h]
    simp [h]
  · rw [if_neg h]
    simp [h]

/-!
Properties of the final chunk lists produced by `enforce_hard_cap` and the
packing loop, needed for the document-assembler claims.
-/

theorem enforce_titles {tok : Str → Nat} {cs : List Chunk} {cap : Int}
    (h : ∀ c ∈ cs, c.title = none) :
    ∀ c ∈ enforce_hard_cap tok cs cap, c.title = none := by
  intro c hc
  obtain ⟨p, hpmem, hcp⟩ := renumberFrom_mem hc
  obtain ⟨c0, hc0, hp0⟩ := capExpand_mem hpmem
  rw [hcp.2.2.2.2, capPieces_title p hp0, h c0 hc0]

theorem packGroups_ne_nil {tok : Str → Nat} {cap : Int} {ss : List Str}
    (h : ss ≠ []) : packGroups tok cap ss ≠ [] := by
  cases ss with
  | nil => exact absurd rfl h
  | cons s ss' =>
    unfold packGroups
    have : (s :: ss').length = ss'.length + 1 := by simp
    rw [this, pgf_succ_cons]
    simp

theorem capPieces_ne_nil {tok : Str → Nat} {cap : Int} {c : Chunk}
    (h : c.text ≠ [] ∧ Stripped c.text) : capPieces tok cap c ≠ [] := by
  by_cases hc : (c.token_count : Int) ≤ cap
  · rw [capPieces_pass hc]
    simp
  · rw [capPieces_over hc]
    apply buildPieces_ne_nil
    apply packGroups_ne_nil
    have htmp : collapseNl (pyStrip c.text) ≠ [] := by
      rw [pyStrip_eq_self h.2]
      exact collapseNl_ne_nil h.1 h.2
    exact (split_of_tmp_ne htmp).2

theorem capExpand_length {tok : Str → Nat} {cap : Int} :
    ∀ {cs : List Chunk}, (∀ c ∈ cs, capPieces tok cap c ≠ []) →
      cs.length ≤ (capExpand tok cap cs).length := by
  intro cs
  induction cs with
  | nil => intro _; simp [capExpand_nil]
  | cons c rest ih =>
    intro h
    rw [capExpand_cons, List.length_append, List.length_cons]
    have h1 : 1 ≤ (capPieces tok cap c).length := by
      have := h c (by simp)
      cases hc : capPieces tok cap c with
      | nil => exact absurd hc this
      | cons x xs => simp
    have h2 := ih (fun x hx => h x (List.mem_cons_of_mem c hx))
    omega

theorem enforce_length {tok : Str → Nat} {cs : List Chunk} {cap : Int}
    (h : ∀ c ∈ cs, c.text ≠ [] ∧ Stripped c.text) :
    cs.length ≤ (enforce_hard_cap tok cs cap).length := by
  unfold enforce_hard_cap
  rw [renumberFrom_length]
  exact capExpand_length (fun c hc => capPieces_ne_nil (h c hc))

theorem drop_take_ne_nil {l : List Str} {i k : Nat} (hi : i < l.length)
    (hk : 1 ≤ k) : (l.drop i).take k ≠ [] := by
  have h1 : (l.drop i).length = l.length - i := by simp
  intro h
  have := congrArg List.length h
  simp at this
  omega

theorem mem_drop_take {l : List Str} {i k : Nat} {s : Str}
    (h : s ∈ (l.drop i).take k) : s ∈ l := by
  have h1 := List.mem_of_mem_take h
  exact List.mem_of_mem_drop h1

theorem packChunk_text_good {tok : Str → Nat} {sentences : List Str}
    (hgood : ∀ s ∈ sentences, GoodSent s) {i cid k : Nat}
    (hk : 1 ≤ k) (hi : i < sentences.length) :
    (packChunk tok sentences i cid k).text ≠ [] ∧
      Stripped (packChunk tok sentences i cid k).text := by
  have hseg : (sentences.drop i).take k ≠ [] := drop_take_ne_nil hi hk
  have hsegood : ∀ s ∈ (sentences.drop i).take k, s ≠ [] ∧ Stripped s := by
    intro s hs
    have := hgood s (mem_drop_take hs)
    exact ⟨this.1, this.2.1⟩
  have hstr : Stripped (joinSp ((sentences.drop i).take k)) :=
    joinSp_stripped hseg hsegood
  have hne : joinSp ((sentences.drop i).take k) ≠ [] :=
    joinSp_ne_nil hseg (fun s hs => (hsegood s hs).1)
  show pyStrip (joinSp ((sentences.drop i).take k)) ≠ [] ∧
    Stripped (pyStrip (joinSp ((sentences.drop i).take k)))
  rw [pyStrip_eq_self hstr]
  exact ⟨hne, hstr⟩

/-!
Lemmas about the document assembler.
-/

theorem sentsOf_good (text : Str) :
    ∀ s ∈ ((split_into_paragraphs text).map split_paragraph_into_sentences).flatten,
      GoodSent s := by
  intro s hs
  rw [List.mem_flatten] at hs
  obtain ⟨l, hl, hsl⟩ := hs
  rw [List.mem_map] at hl
  obtain ⟨p, _, hp⟩ := hl
  subst hp
  exact (split_props p).1 s hsl

theorem assignParts_length {tok : Str → Nat} {title pre : Str} {total : Nat} :
    ∀ (l : List Chunk) (i : Nat), (assignParts tok title pre total i l).length = l.length := by
  intro l
  induction l with
  | nil => intro i; rfl
  | cons c rest ih =>
    intro i
    unfold assignParts
    simp [ih]

theorem assignParts_fields {tok : Str → Nat} {title pre : Str} {total : Nat} :
    ∀ {l : List Chunk} {i : Nat} {c2 : Chunk}, c2 ∈ assignParts tok title pre total i l →
      ∃ c ∈ l, c2.start_sentence = c.start_sentence ∧
        c2.end_sentence = c.end_sentence ∧ c2.chunk_id = c.chunk_id ∧
        c2.text = pre ++ c.text ∧ ∃ t2, c2.title = some t2 := by
  intro l
  induction l with
  | nil => intro i c2 h; simp [assignParts] at h
  | cons c rest ih =>
    intro i c2 h
    unfold assignParts at h
    rcases List.mem_cons.mp h with rfl | h2
    · exact ⟨c, by simp, rfl, rfl, rfl, rfl, _, rfl⟩
    · obtain ⟨c3, hc3, hf⟩ := ih h2
      exact ⟨c3, List.mem_cons_of_mem c hc3, hf⟩

theorem enforce_start_le {tok : Str → Nat} {cs : List Chunk} {cap : Int}
    (h : ∀ c ∈ cs, c.start_sentence ≤ c.end_sentence) :
    ∀ c ∈ enforce_hard_cap tok cs cap, c.start_sentence ≤ c.end_sentence := by
  intro c hc
  obtain ⟨p, hpmem, hcp⟩ := renumberFrom_mem hc
  obtain ⟨c0, hc0, hp0⟩ := capExpand_mem hpmem
  rw [hcp.2.2.1, hcp.2.2.2.1]
  exact capPieces_start_le (h c0 hc0) p hp0

theorem create_empty_eq {tok : Str → Nat} {title body : Str}
    {cz ov met : Int} {fuel : Nat} (h : body = [] ∨ pyStrip body = []) :
    create_chunks_for_document tok title body cz ov met fuel =
      .ok (some [Chunk.mk 0 (if title = [] then untitledText else title)
        (tok (if title = [] then untitledText else title)) 0 0 (some title)]) := by
  unfold create_chunks_for_document
  rw [if_pos h]

theorem create_main_eq {tok : Str → Nat} {title body : Str}
    {cz ov met : Int} {fuel : Nat} {cs : List Chunk}
    (hbody : ¬ (body = [] ∨ pyStrip body = []))
    (hct : chunk_text tok (md_to_text body) cz ov fuel = .ok (some cs)) :
    create_chunks_for_document tok title body cz ov met fuel =
      if 1 < (enforce_hard_cap tok cs (met - 200)).length then
        .ok (some (assignParts tok title
          (if title = [] then []
            else ("Title: ").toList ++ title ++ ("\n\n").toList)
          (enforce_hard_cap tok cs (met - 200)).length 1
          (enforce_hard_cap tok cs (met - 200))))
      else .ok (some (enforce_hard_cap tok cs (met - 200))) := by
  unfold create_chunks_for_document
  rw [if_neg hbody, hct]

theorem create_inv {tok : Str → Nat} {title body : Str}
    {cz ov met : Int} {fuel : Nat} {out : List Chunk}
    (hbody : ¬ (body = [] ∨ pyStrip body = []))
    (hout : create_chunks_for_document tok title body cz ov met fuel = .ok (some out)) :
    ∃ cs, chunk_text tok (md_to_text body) cz ov fuel = .ok (some cs) ∧
      out = (if 1 < (enforce_hard_cap tok cs (met - 200)).length then
        assignParts tok title
          (if title = [] then []
            else ("Title: ").toList ++ title ++ ("\n\n").toList)
          (enforce_hard_cap tok cs (met - 200)).length 1
          (enforce_hard_cap tok cs (met - 200))
      else enforce_hard_cap tok cs (met - 200)) := by
  cases hct : chunk_text tok (md_to_text body) cz ov fuel with
  | error e =>
    unfold create_chunks_for_document at hout
    rw [if_neg hbody, hct] at hout
    simp at hout
  | ok o =>
    cases o with
    | none =>
      unfold create_chunks_for_document at hout
      rw [if_neg hbody, hct] at hout
      simp at hout
    | some cs =>
      rw [create_main_eq hbody hct] at hout
      refine ⟨cs, rfl, ?_⟩
      by_cases hlen : 1 < (enforce_hard_cap tok cs (met - 200)).length
      · rw [if_pos hlen] at hout ⊢
        simp at hout
        exact hout.symm
      · rw [if_neg hlen] at hout ⊢
        simp at hout
        exact hout.symm

theorem pack_ok_inv {tok : Str → Nat} {sentences : List Str} {mt ot : Int}
    {fuel : Nat} {cs : List Chunk}
    (h : pack_sentences_into_chunks tok sentences mt ot fuel = .ok (some cs)) :
    packLoop tok mt ot sentences (sentence_token_counts tok sentences) fuel 0 0 [] = some cs := by
  unfold pack_sentences_into_chunks at h
  by_cases h1 : mt ≤ 0
  · rw [if_pos h1] at h
    simp at h
  · rw [if_neg h1] at h
    by_cases h2 : ot < 0
    · rw [if_pos h2] at h
      simp at h
    · rw [if_neg h2] at h
      simpa using h

theorem packLoop_ne_nil {tok : Str → Nat} {mt ot : Int} {sentences : List Str}
    {fuel : Nat} {out : List Chunk} (hs : sentences ≠ [])
    (h : packLoop tok mt ot sentences (sentence_token_counts tok sentences) fuel 0 0 [] = some out) :
    out ≠ [] := by
  have hlen : 0 < sentences.length := by
    cases sentences with
    | nil => exact absurd rfl hs
    | cons a as => simp
  cases fuel with
  | zero =>
    rw [packLoop_zero, if_pos hlen] at h
    simp at h
  | succ fuel =>
    cases hd : (sentence_token_counts tok sentences).drop 0 with
    | nil =>
      rw [packLoop_succ_out hlen hd] at h
      simp at h
    | cons t ts =>
      rw [packLoop_succ_cons hlen hd] at h
      have h1 : (1 : Nat) ≤ out.length := by
        by_cases hcond : sentences.length ≤ 0 + takeCount mt t ts || ot = 0
        · rw [if_pos hcond] at h
          have := packLoop_length _ _ _ _ _ h
          simpa using this
        · rw [if_neg hcond] at h
          have := packLoop_length _ _ _ _ _ h
          simpa using this
      intro hnil
      rw [hnil] at h1
      simp at h1

/-!
The claims.
-/

/-- Helper for claim C1: on two sentences of two characters each, with
`max_tokens = 3` and `overlap_tokens = 1` under the length tokenizer, one
iteration of the packing loop emits the chunk for sentence 0 and then the
overlap rewind walks past the start of that chunk and resets the scan
position to 0, so the loop state repeats forever. -/
theorem packLoop_stuck :
    ∀ (fuel cid : Nat) (acc : List Chunk),
      packLoop lenTok 3 1 [['a', 'b'], ['c', 'd']]
        (sentence_token_counts lenTok [['a', 'b'], ['c', 'd']])
        fuel 0 cid acc = none := by
  intro fuel
  induction fuel with
  | zero => intro cid acc; rfl
  | succ fuel ih =>
    intro cid acc
    have hstep :
        packLoop lenTok 3 1 [['a', 'b'], ['c', 'd']]
          (sentence_token_counts lenTok [['a', 'b'], ['c', 'd']])
          (fuel + 1) 0 cid acc =
        packLoop lenTok 3 1 [['a', 'b'], ['c', 'd']]
          (sentence_token_counts lenTok [['a', 'b'], ['c', 'd']])
          fuel 0 (cid + 1)
          (packChunk lenTok [['a', 'b'], ['c', 'd']] 0 cid 1 :: acc) := rfl
    rw [hstep, ih]

/-- Claim C1 (code bug): `pack_sentences_into_chunks` does not consume all
sentences for every valid `max_tokens > 0`, `overlap_tokens ≥ 0`: on the
sentences `["ab", "cd"]` with token counts `[2, 2]` (length tokenizer),
`max_tokens = 3` and `overlap_tokens = 1`, the overlap rewind
`i = max(j + 1, start_i)` returns the scan position to `start_i` after every
chunk, so the loop never terminates — the fuelled embedding returns `none`
for every fuel instead of a chunk list ending at the last sentence. -/
theorem pack_nonterminating_on_short_tail :
    ∀ fuel : Nat,
      pack_sentences_into_chunks lenTok [['a', 'b'], ['c', 'd']] 3 1 fuel =
        .ok none := by
  intro fuel
  unfold pack_sentences_into_chunks
  rw [if_neg (by decide), if_neg (by decide), packLoop_stuck fuel 0 []]

/-- Claim C4: `pack_sentences_into_chunks` fails with its `ValueError` if
and only if `max_tokens ≤ 0` or `overlap_tokens < 0`; the validation runs
before any chunk is built (an error result carries no chunks), and for
valid parameters no error is raised for any sentence list. -/
theorem pack_invalid_argument_iff (tok : Str → Nat) (sentences : List Str)
    (maxTokens overlapTokens : Int) (fuel : Nat) :
    (∃ e, pack_sentences_into_chunks tok sentences maxTokens overlapTokens fuel =
      .error e) ↔ maxTokens ≤ 0 ∨ overlapTokens < 0 := by
  unfold pack_sentences_into_chunks
  by_cases h1 : maxTokens ≤ 0
  · rw [if_pos h1]
    simp [h1]
  · rw [if_neg h1]
    by_cases h2 : overlapTokens < 0
    · rw [if_pos h2]
      simp [h2]
    · rw [if_neg h2]
      simp [h1, h2]

/-- Claim C5: the hard-cap enforcer is idempotent: re-running
`enforce_hard_cap` on its own output with the same cap returns that output
unchanged, field for field, `chunk_id` values included. -/
theorem enforce_hard_cap_idempotent (tok : Str → Nat) (cs : List Chunk)
    (cap : Int) :
    enforce_hard_cap tok (enforce_hard_cap tok cs cap) cap =
      enforce_hard_cap tok cs cap := by
  conv_lhs => rw [enforce_hard_cap]
  rw [renumberFrom_expand _ 0 enforce_singleton]
  show renumberFrom 0 (enforce_hard_cap tok cs cap) = enforce_hard_cap tok cs cap
  unfold enforce_hard_cap
  exact renumberFrom_idem _ 0

/-- Claim C6: for an empty or whitespace-only body,
`create_chunks_for_document` returns exactly one chunk whose text is the
title (or the literal `"<Untitled>"` when the title is empty), whose token
count is the tokenizer count of that text, and whose sentence range is
`[0, 0]`. -/
theorem create_chunks_empty_body (tok : Str → Nat) (title body : Str)
    (cz ov met : Int) (fuel : Nat) (h : pyStrip body = []) :
    create_chunks_for_document tok title body cz ov met fuel =
      .ok (some [Chunk.mk 0 (if title = [] then untitledText else title)
        (tok (if title = [] then untitledText else title)) 0 0 (some title)]) :=
  create_empty_eq (Or.inr h)

/-- Witness for claim C6, scenario E of the spec: title `"Bug"`, body a
single space. -/
theorem create_chunks_empty_body_witness :
    pyStrip ([' ']) = [] ∧
      create_chunks_for_document lenTok (("Bug").toList) [' '] 600 100 8192 0 =
        .ok (some [Chunk.mk 0 (("Bug").toList) 3 0 0 (some (("Bug").toList))]) := by
  refine ⟨by decide, ?_⟩
  rw [create_chunks_empty_body lenTok (("Bug").toList) [' '] 600 100 8192 0 (by decide)]
  rfl

/-- Counterexample for claim C9: the paragraph `"a\nb"` is non-empty after
trimming and contains no sentence boundary, yet the splitter returns
`["a b"]` — the embedded newline is collapsed to a space — rather than the
trimmed paragraph `"a\nb"` itself. -/
theorem split_sentences_newline_cex :
    split_paragraph_into_sentences ['a', '\n', 'b'] = [['a', ' ', 'b']] ∧
      pyStrip ['a', '\n', 'b'] = ['a', '\n', 'b'] ∧
      nfThru ' ' ['a', '\n', 'b'] [] = true ∧
      (['a', ' ', 'b'] : Str) ≠ ['a', '\n', 'b'] := by decide

/-- Claim C9 (amended): a paragraph that is empty after trimming yields no
sentences; and a paragraph whose trimmed, newline-collapsed text is
non-empty and contains no sentence boundary yields exactly one sentence
equal to that trimmed, newline-collapsed text (not the raw trimmed
paragraph: interior newline runs are first replaced by single spaces). -/
theorem split_sentences_no_boundary_amended (p : Str) :
    (pyStrip p = [] → split_paragraph_into_sentences p = []) ∧
      (collapseNl (pyStrip p) ≠ [] →
        nfThru ' ' (collapseNl (pyStrip p)) [] = true →
        split_paragraph_into_sentences p = [collapseNl (pyStrip p)]) := by
  constructor
  · intro h
    apply split_of_tmp_nil
    rw [h]
    rfl
  · intro hne hnf
    have hstr : Stripped (collapseNl (pyStrip p)) :=
      collapseNl_stripped (pyStrip_stripped p)
    have htp : takePart ' ' (collapseNl (pyStrip p)) =
        (collapseNl (pyStrip p), none) := takePart_none_thru hnf
    unfold split_paragraph_into_sentences scanParts
    rw [spf_succ_none htp, sentMerge_start (pyStrip_eq_self hstr) hne,
      sentMerge_nil_ne hne]
    rfl

/-- Witness for the amended claim C9 at the boundary-free paragraph
`"hello world"`. -/
theorem split_sentences_no_boundary_amended_witness :
    collapseNl (pyStrip (("hello world").toList)) ≠ [] ∧
      nfThru ' ' (collapseNl (pyStrip (("hello world").toList))) [] = true ∧
      split_paragraph_into_sentences (("hello world").toList) =
        [collapseNl (pyStrip (("hello world").toList))] :=
  ⟨by decide, by decide,
    (split_sentences_no_boundary_amended (("hello world").toList)).2
      (by decide) (by decide)⟩

/-- Claim C10: the hard-cap enforcer never changes the `title` field: every
piece produced for an input chunk carries that chunk's title (pass-through
chunks their own, sub-chunks the split chunk's), and hence every output
chunk's title equals the title of the input chunk it came from. -/
theorem enforce_hard_cap_preserves_titles (tok : Str → Nat) (cs : List Chunk)
    (cap : Int) :
    (∀ (c : Chunk), ∀ p ∈ capPieces tok cap c, p.title = c.title) ∧
      ∀ c ∈ enforce_hard_cap tok cs cap, ∃ c0 ∈ cs, c.title = c0.title := by
  refine ⟨fun c p hp => capPieces_title p hp, ?_⟩
  intro c hc
  obtain ⟨p, hpmem, hcp⟩ := renumberFrom_mem hc
  obtain ⟨c0, hc0, hp0⟩ := capExpand_mem hpmem
  exact ⟨c0, hc0, by rw [hcp.2.2.2.2, capPieces_title p hp0]⟩

/-- Witness for claim C10: a pass-through chunk and a split chunk both keep
their titles. -/
theorem enforce_hard_cap_preserves_titles_witness :
    ∃ c0 ∈ [Chunk.mk 7 (("Aaa. Bbb.").toList) 100 5 6 (some (("t").toList))],
      (Chunk.mk 0 (("Aaa.").toList) 4 5 5 (some (("t").toList))).title = c0.title :=
  (enforce_hard_cap_preserves_titles nonSpaceTok
    [Chunk.mk 7 (("Aaa. Bbb.").toList) 100 5 6 (some (("t").toList))] 5).2
    (Chunk.mk 0 (("Aaa.").toList) 4 5 5 (some (("t").toList))) (by decide)

/-- Claim C2: every chunk returned by the hard-cap enforcer satisfies
`token_count ≤ cap`, except sub-chunks that consist of a single sentence
whose own token count exceeds the cap (for those,
`start_sentence = end_sentence` and the chunk text is exactly one
sentence).  The tokenizer is an external collaborator, modelled as any
function subadditive over the single-space joins the enforcer performs. -/
theorem enforce_hard_cap_cap_compliance (tok : Str → Nat)
    (hsub : SpaceSubadd tok) (cs : List Chunk) (cap : Int) :
    ∀ c ∈ enforce_hard_cap tok cs cap,
      (c.token_count : Int) ≤ cap ∨
        (c.start_sentence = c.end_sentence ∧ cap < (c.token_count : Int) ∧
          c.token_count = tok c.text ∧
          split_paragraph_into_sentences c.text = [c.text]) := by
  intro c hc
  by_cases hcap : (c.token_count : Int) ≤ cap
  · exact Or.inl hcap
  · right
    obtain ⟨p, hpmem, e1, e2, e3, e4, e5⟩ := renumberFrom_mem hc
    obtain ⟨c0, hc0, hp0⟩ := capExpand_mem hpmem
    by_cases h0 : (c0.token_count : Int) ≤ cap
    · exfalso
      rw [capPieces_pass h0] at hp0
      simp at hp0
      subst hp0
      rw [e2] at hcap
      exact hcap h0
    · obtain ⟨g, hgne, hgood, habl, htla, hbound, _, ht, htc, hend, _⟩ :=
        capPieces_split h0 hp0
      obtain ⟨hstripid, hsplitg⟩ := split_join hgne hgood habl htla
      rcases hbound with hsum | hlen1
      · exfalso
        apply hcap
        rw [e2, htc, ht, hstripid]
        have h1 : tok (joinSp g) ≤ (g.map tok).sum := joinSp_subadd hsub hgne
        omega
      · cases g with
        | nil => exact absurd rfl hgne
        | cons s gtail =>
          have hgt : gtail = [] := by
            simp at hlen1
            exact hlen1
          subst hgt
          have hs := hgood s (by simp)
          have hctext : c.text = s := by
            rw [e1, ht, joinSp_single, pyStrip_eq_self hs.2.1]
          refine ⟨?_, by omega, ?_, ?_⟩
          · rw [e3, e4, hend]
            simp
          · rw [e2, htc, e1]
          · rw [hctext]
            have hss := hsplitg
            rw [joinSp_single] at hss
            rw [hss]

/-- Witness for claim C2: splitting an oversized chunk under cap 5 with the
non-space-counting tokenizer yields a compliant sub-chunk. -/
theorem enforce_hard_cap_cap_compliance_witness :
    (((Chunk.mk 0 (("Aaa.").toList) 4 5 5 none).token_count : Int) ≤ 5) ∨
      ((Chunk.mk 0 (("Aaa.").toList) 4 5 5 none).start_sentence =
          (Chunk.mk 0 (("Aaa.").toList) 4 5 5 none).end_sentence ∧
        (5 : Int) < ((Chunk.mk 0 (("Aaa.").toList) 4 5 5 none).token_count : Int) ∧
        (Chunk.mk 0 (("Aaa.").toList) 4 5 5 none).token_count =
          nonSpaceTok (Chunk.mk 0 (("Aaa.").toList) 4 5 5 none).text ∧
        split_paragraph_into_sentences
          (Chunk.mk 0 (("Aaa.").toList) 4 5 5 none).text =
          [(Chunk.mk 0 (("Aaa.").toList) 4 5 5 none).text]) :=
  enforce_hard_cap_cap_compliance nonSpaceTok nonSpaceTok_subadd
    [Chunk.mk 7 (("Aaa. Bbb.").toList) 100 5 6 none] 5
    (Chunk.mk 0 (("Aaa.").toList) 4 5 5 none) (by decide)

/-- Claim C8: every chunk produced by the packer, the hard-cap enforcer
(on well-formed input), and the document assembler satisfies
`start_sentence ≤ end_sentence`. -/
theorem chunk_ranges_start_le_end :
    (∀ (tok : Str → Nat) (sentences : List Str) (mt ot : Int) (fuel : Nat)
        (out : List Chunk),
        pack_sentences_into_chunks tok sentences mt ot fuel = .ok (some out) →
        ∀ c ∈ out, c.start_sentence ≤ c.end_sentence) ∧
      (∀ (tok : Str → Nat) (cs : List Chunk) (cap : Int),
        (∀ c ∈ cs, c.start_sentence ≤ c.end_sentence) →
        ∀ c ∈ enforce_hard_cap tok cs cap, c.start_sentence ≤ c.end_sentence) ∧
      (∀ (tok : Str → Nat) (title body : Str) (cz ov met : Int) (fuel : Nat)
        (out : List Chunk),
        create_chunks_for_document tok title body cz ov met fuel = .ok (some out) →
        ∀ c ∈ out, c.start_sentence ≤ c.end_sentence) := by
  have hpack : ∀ (tok : Str → Nat) (sentences : List Str) (mt ot : Int)
      (fuel : Nat) (out : List Chunk),
      pack_sentences_into_chunks tok sentences mt ot fuel = .ok (some out) →
      ∀ c ∈ out, c.start_sentence ≤ c.end_sentence := by
    intro tok sentences mt ot fuel out hout
    exact packLoop_invariant (fun c => c.start_sentence ≤ c.end_sentence)
      (fun i cid k hk hi => by show i ≤ i + (k - 1); omega)
      fuel 0 0 [] out (by simp) (pack_ok_inv hout)
  refine ⟨hpack, fun tok cs cap h => enforce_start_le h, ?_⟩
  intro tok title body cz ov met fuel out hout
  by_cases hb : body = [] ∨ pyStrip body = []
  · rw [create_empty_eq hb] at hout
    simp at hout
    subst hout
    intro c hc
    simp at hc
    subst hc
    exact le_refl 0
  · obtain ⟨cs, hct, houteq⟩ := create_inv hb hout
    have hcs : ∀ c ∈ cs, c.start_sentence ≤ c.end_sentence :=
      hpack tok _ cz ov fuel cs hct
    have henf := @enforce_start_le tok cs (met - 200) hcs
    intro c hc
    rw [houteq] at hc
    by_cases hlen : 1 < (enforce_hard_cap tok cs (met - 200)).length
    · rw [if_pos hlen] at hc
      obtain ⟨c0, hc0, f1, f2, _⟩ := assignParts_fields hc
      rw [f1, f2]
      exact henf c0 hc0
    · rw [if_neg hlen] at hc
      exact henf c hc

/-- Witness for claim C8: the packer on the single sentence `"Hi."`. -/
theorem chunk_ranges_start_le_end_witness :
    (Chunk.mk 0 (("Hi.").toList) 3 0 0 none).start_sentence ≤
      (Chunk.mk 0 (("Hi.").toList) 3 0 0 none).end_sentence :=
  chunk_ranges_start_le_end.1 lenTok [("Hi.").toList] 100 0 1
    [Chunk.mk 0 (("Hi.").toList) 3 0 0 none] rfl
    (Chunk.mk 0 (("Hi.").toList) 3 0 0 none) (by decide)

/-- Counterexample for claim C3: the body consisting of one fenced code
block is a non-empty (and non-whitespace) string, but the markdown cleaner
strips it to nothing and `create_chunks_for_document` returns zero
chunks. -/
theorem create_chunks_zero_for_fence_body :
    (("```x```").toList ≠ [] ∧ pyStrip (("```x```").toList) ≠ []) ∧
      create_chunks_for_document lenTok (("T").toList) (("```x```").toList)
        600 100 8192 0 = .ok (some []) := by
  refine ⟨⟨by decide, by decide⟩, ?_⟩
  rfl

/-- Claim C3 (amended): `create_chunks_for_document` returns at least one
chunk whenever it returns, provided the body is empty or whitespace-only
(placeholder path) or the markdown-cleaned body text is non-empty; a
non-empty body consisting only of markup that the cleaner removes entirely
yields zero chunks instead. -/
theorem create_chunks_at_least_one_amended (tok : Str → Nat)
    (title body : Str) (cz ov met : Int) (fuel : Nat) (out : List Chunk)
    (h : pyStrip body = [] ∨ md_to_text body ≠ [])
    (hout : create_chunks_for_document tok title body cz ov met fuel =
      .ok (some out)) :
    out ≠ [] := by
  by_cases hb : body = [] ∨ pyStrip body = []
  · rw [create_empty_eq hb] at hout
    simp at hout
    subst hout
    simp
  · have hmd : md_to_text body ≠ [] := by
      rcases h with h | h
      · exact absurd (Or.inr h) hb
      · exact h
    obtain ⟨cs, hct, houteq⟩ := create_inv hb hout
    obtain ⟨hTstr, hTn, hTr⟩ := md_to_text_good body
    have hTs : pyStrip (md_to_text body) = md_to_text body := pyStrip_eq_self hTstr
    have hpara : split_into_paragraphs (md_to_text body) = [md_to_text body] := by
      rw [split_into_paragraphs_of_clean hTn hTr, hTs, if_neg hmd]
    have hsents : ((split_into_paragraphs (md_to_text body)).map
        split_paragraph_into_sentences).flatten =
        split_paragraph_into_sentences (md_to_text body) := by
      rw [hpara]
      simp
    have hsne : split_paragraph_into_sentences (md_to_text body) ≠ [] := by
      have htmp : collapseNl (pyStrip (md_to_text body)) ≠ [] := by
        rw [hTs]
        exact collapseNl_ne_nil hmd hTstr
      exact (split_of_tmp_ne htmp).2
    have hpl := pack_ok_inv (show pack_sentences_into_chunks tok
      (((split_into_paragraphs (md_to_text body)).map
        split_paragraph_into_sentences).flatten) cz ov fuel =
      .ok (some cs) from hct)
    have hcsne : cs ≠ [] := packLoop_ne_nil (by rw [hsents]; exact hsne) hpl
    have hcsgood : ∀ c ∈ cs, c.text ≠ [] ∧ Stripped c.text :=
      packLoop_invariant (fun c => c.text ≠ [] ∧ Stripped c.text)
        (fun i cid k hk hi =>
          packChunk_text_good (sentsOf_good (md_to_text body)) hk hi)
        fuel 0 0 [] cs (by simp) hpl
    have hcap := @enforce_length tok cs (met - 200) hcsgood
    have hcapne : enforce_hard_cap tok cs (met - 200) ≠ [] := by
      intro hnil
      have h0 : (enforce_hard_cap tok cs (met - 200)).length = 0 := by
        rw [hnil]
        rfl
      exact hcsne (List.length_eq_zero.mp (by omega))
    rw [houteq]
    by_cases hlen : 1 < (enforce_hard_cap tok cs (met - 200)).length
    · rw [if_pos hlen]
      intro hnil
      have h0 := congrArg List.length hnil
      rw [assignParts_length] at h0
      exact hcapne (List.length_eq_zero.mp h0)
    · rw [if_neg hlen]
      exact hcapne

/-- Witness for the amended claim C3 on the body `"One."`. -/
theorem create_chunks_at_least_one_amended_witness :
    (pyStrip (("One.").toList) = [] ∨ md_to_text (("One.").toList) ≠ []) ∧
      create_chunks_for_document lenTok (("T").toList) (("One.").toList)
        600 100 8192 2 =
        .ok (some [Chunk.mk 0 (("One.").toList) 4 0 0 none]) ∧
      ([Chunk.mk 0 (("One.").toList) 4 0 0 none] : List Chunk) ≠ [] :=
  ⟨Or.inr (by decide), rfl,
    create_chunks_at_least_one_amended lenTok (("T").toList) (("One.").toList)
      600 100 8192 2 [Chunk.mk 0 (("One.").toList) 4 0 0 none]
      (Or.inr (by decide)) rfl⟩

/-- Counterexample for claim C7: with title `"Bug"` and an empty body, the
final output is exactly one chunk, yet that chunk's `title` field is
assigned (it is the document title), not `None`. -/
theorem create_chunks_single_chunk_titled_cex :
    create_chunks_for_document lenTok (("Bug").toList) [] 600 100 8192 0 =
      .ok (some [Chunk.mk 0 (("Bug").toList) 3 0 0 (some (("Bug").toList))]) ∧
      (some (("Bug").toList) : Option Str) ≠ none := ⟨rfl, by simp⟩

/-- Claim C7 (amended): for a body that is not empty or whitespace-only,
when the pipeline yields exactly one chunk the assembler returns the
hard-cap enforcer's output verbatim — no context prefix, no part marker —
and that chunk's `title` is `None`.  (For an empty or whitespace-only body
the single placeholder chunk instead carries the document title in its
`title` field.) -/
theorem create_chunks_single_chunk_untitled_amended (tok : Str → Nat)
    (title body : Str) (cz ov met : Int) (fuel : Nat) (cs : List Chunk)
    (hbody : pyStrip body ≠ [])
    (hct : chunk_text tok (md_to_text body) cz ov fuel = .ok (some cs))
    (hone : (enforce_hard_cap tok cs (met - 200)).length = 1) :
    create_chunks_for_document tok title body cz ov met fuel =
      .ok (some (enforce_hard_cap tok cs (met - 200))) ∧
      ∀ c ∈ enforce_hard_cap tok cs (met - 200), c.title = none := by
  have hb : ¬ (body = [] ∨ pyStrip body = []) := by
    intro hcon
    rcases hcon with hcon | hcon
    · apply hbody
      rw [hcon]
      rfl
    · exact hbody hcon
  constructor
  · rw [create_main_eq hb hct, if_neg (by omega)]
  · apply enforce_titles
    have hpl := pack_ok_inv (show pack_sentences_into_chunks tok
      (((split_into_paragraphs (md_to_text body)).map
        split_paragraph_into_sentences).flatten) cz ov fuel =
      .ok (some cs) from hct)
    exact packLoop_invariant (fun c => c.title = none)
      (fun i cid k _ _ => rfl) fuel 0 0 [] cs (by simp) hpl

/-- Witness for the amended claim C7 on the body `"Hello."`. -/
theorem create_chunks_single_chunk_untitled_amended_witness :
    pyStrip (("Hello.").toList) ≠ [] ∧
      chunk_text lenTok (md_to_text (("Hello.").toList)) 600 100 2 =
        .ok (some [Chunk.mk 0 (("Hello.").toList) 6 0 0 none]) ∧
      (enforce_hard_cap lenTok [Chunk.mk 0 (("Hello.").toList) 6 0 0 none]
        (8192 - 200)).length = 1 ∧
      (create_chunks_for_document lenTok (("T").toList) (("Hello.").toList)
          600 100 8192 2 =
        .ok (some (enforce_hard_cap lenTok
          [Chunk.mk 0 (("Hello.").toList) 6 0 0 none] (8192 - 200))) ∧
        ∀ c ∈ enforce_hard_cap lenTok
          [Chunk.mk 0 (("Hello.").toList) 6 0 0 none] (8192 - 200),
          c.title = none) :=
  ⟨by decide, rfl, rfl,
    create_chunks_single_chunk_untitled_amended lenTok (("T").toList)
      (("Hello.").toList) 600 100 8192 2
      [Chunk.mk 0 (("Hello.").toList) 6 0 0 none] (by decide) rfl rfl⟩

end IssueTriage
